import Mathlib

/-!
Verification of the PERT/CPM scheduling engine (`pert/pert_calculator.py`,
with the task model from `pert/models.py`).

A task (`Tache`) carries a code, an integer duration (`duree`) and the list
of codes of its dependencies (the `dependances` many-to-many relation,
represented by the dependency codes).  The `successeurs` relation is the
reverse of `dependances`; the calculator is invoked on the tasks of one
project and dependencies are restricted to that project (`forms.py` limits
the `dependances` queryset to the same project), so successors are derived
inside the supplied collection.

Python dictionaries keyed by task code are modelled as total functions
`String → Int` updated pointwise; keys outside the collection, whose lookup
would raise `KeyError` in Python, are only ever read on unreachable paths
(noted where they occur).  The unbounded recursion / `while` loops of the
source are modelled with an explicit fuel argument that provably exceeds the
number of iterations the source can perform, so the model computes exactly
what the source computes.
-/

namespace Pert

structure Tache where
  code : String
  duree : Int
  deps : List String
deriving DecidableEq, Repr

/-- `self.taches_dict = {t.code: t for t in self.taches}` followed by lookup.
With duplicate codes a Python dict keeps the last binding, but task codes are
unique within a project (`unique_together = ['projet', 'code']` in
`models.py`), in which case first and last binding coincide. -/
def taches_dict (ts : List Tache) (c : String) : Option Tache :=
  ts.find? (fun t => t.code == c)

/-- `tache.successeurs.all()`: the tasks of the collection whose dependency
list contains `t.code` (reverse of the `dependances` relation). -/
def successeurs (ts : List Tache) (t : Tache) : List Tache :=
  ts.filter (fun s => t.code ∈ s.deps)

/-- Fuel bound for the recursive DFS of `_has_circular_dependency`: each
recursive call visits a code that was not yet visited, and every visited code
is either a task code or a dependency code, so the recursion depth is at most
`ts.length + Σ |deps|`. -/
def fuel_dfs (ts : List Tache) : Nat :=
  ts.length + (ts.map (fun t => t.deps.length)).sum + 1

/-- The recursive `dfs` of `_has_circular_dependency`.  State: the shared
`visited` and `rec_stack` sets (modelled as lists).  The loop over the
dependencies, with its early `return True`, is a fold threading
`(found, visited, rec_stack)`. -/
def dfs (ts : List Tache) : Nat → String → List String → List String →
    Bool × List String × List String
  | 0, _, visited, rec_stack => (false, visited, rec_stack)
  | fuel+1, c, visited, rec_stack =>
    let visited := c :: visited
    let rec_stack := c :: rec_stack
    let ds := match taches_dict ts c with
      | some t => t.deps
      | none => []
    let r := ds.foldl
      (fun acc d =>
        match acc with
        | (true, v, rs) => (true, v, rs)
        | (false, v, rs) =>
          if d ∈ v then
            if d ∈ rs then (true, v, rs) else (false, v, rs)
          else dfs ts fuel d v rs)
      (false, visited, rec_stack)
    match r with
    | (true, v, rs) => (true, v, rs)
    | (false, v, rs) => (false, v, rs.erase c)

/-- The body of the dependency loop of `dfs`, as a named fold step (the same
function that appears inline in `dfs`). -/
def dfs_acc (ts : List Tache) (fuel : Nat) :
    (Bool × List String × List String) → String → Bool × List String × List String :=
  fun acc d =>
    match acc with
    | (true, v, rs) => (true, v, rs)
    | (false, v, rs) =>
      if d ∈ v then
        if d ∈ rs then (true, v, rs) else (false, v, rs)
      else dfs ts fuel d v rs

/-- The top-level loop of `_has_circular_dependency`: run `dfs` from every
task whose code is not yet visited. -/
def has_circular_loop (ts : List Tache) :
    List Tache → List String → List String → Bool
  | [], _, _ => false
  | t :: rest, visited, rec_stack =>
    if t.code ∈ visited then has_circular_loop ts rest visited rec_stack
    else
      match dfs ts (fuel_dfs ts) t.code visited rec_stack with
      | (true, _, _) => true
      | (false, v, rs) => has_circular_loop ts rest v rs

def has_circular_dependency (ts : List Tache) : Bool :=
  has_circular_loop ts ts [] []

/-- Pointwise update of a code-indexed dictionary. -/
def update (f : String → Int) (c : String) (v : Int) : String → Int :=
  fun x => if x = c then v else f x

/-- The `in_degree` defaultdict after the counting loop of `_tri_topologique`:
`in_degree[t.code] += 1` for every dependency of every task (with duplicate
codes the counts accumulate, exactly as in the Python `defaultdict`). -/
def init_in_degree (ts : List Tache) : String → Int :=
  fun c => ((ts.filter (fun t => t.code == c)).map (fun t => (t.deps.length : Int))).sum

/-- The inner loop of `_tri_topologique`'s BFS: decrement the in-degree of
every successor of the emitted task, collecting (in order) the codes whose
in-degree reaches zero right after their decrement. -/
def process_successeurs : List Tache → (String → Int) → (String → Int) × List String
  | [], deg => (deg, [])
  | s :: rest, deg =>
    let deg1 := update deg s.code (deg s.code - 1)
    let (degf, pushed) := process_successeurs rest deg1
    if deg1 s.code == 0 then (degf, s.code :: pushed) else (degf, pushed)

/-- The `while queue` loop of `_tri_topologique` (Kahn's algorithm, FIFO
queue).  Each iteration pops one code and appends it to `ordre`; since every
code enters the queue at most once the number of iterations is bounded by the
fuel chosen in `tri_topologique`.  The `taches_dict[tache_code]` lookup is
strict in Python; every code ever enqueued is the code of a task of the
collection, so the `none` branch is unreachable. -/
def kahn_loop (ts : List Tache) :
    Nat → List String → (String → Int) → List String → List String
  | 0, _, _, ordre => ordre
  | _+1, [], _, ordre => ordre
  | fuel+1, c :: q, deg, ordre =>
    let succs := match taches_dict ts c with
      | some t => successeurs ts t
      | none => []
    let r := process_successeurs succs deg
    kahn_loop ts fuel (q ++ r.2) r.1 (ordre ++ [c])

def tri_topologique (ts : List Tache) : List String :=
  let deg := init_in_degree ts
  let queue := (ts.filter (fun t => deg t.code == 0)).map (fun t => t.code)
  kahn_loop ts (2 * ts.length + 1) queue deg []

/-- The two date dictionaries of one pass (`dates_debut_*`, `dates_fin_*`). -/
structure Dates where
  debut : String → Int
  fin : String → Int

/-- Python's `max` over a nonempty sequence, head plus tail. -/
def maxList (x : Int) (xs : List Int) : Int := xs.foldl max x

/-- Python's `min` over a nonempty sequence, head plus tail. -/
def minList (x : Int) (xs : List Int) : Int := xs.foldl min x

/-- The body of the forward-pass loop of `_calculer_dates_tot` for one code of
the topological order.  `none` is unreachable: every emitted code is the code
of a task of the collection. -/
def forward_step (ts : List Tache) (st : Dates) (c : String) : Dates :=
  match taches_dict ts c with
  | none => st
  | some t =>
    let d : Int := match t.deps with
      | [] => 0
      | d0 :: ds => maxList (st.fin d0) (ds.map st.fin)
    { debut := update st.debut c d, fin := update st.fin c (d + t.duree) }

/-- `_calculer_dates_tot`: both dictionaries are initialised to `0` on every
task code, then the tasks are processed in the order of `_tri_topologique`. -/
def calculer_dates_tot (ts : List Tache) : Dates :=
  (tri_topologique ts).foldl (forward_step ts) { debut := fun _ => 0, fin := fun _ => 0 }

/-- `max(self.dates_fin_tot.values())`: the dictionary holds exactly the task
codes.  Empty collections never reach the backward pass (`calculer` returns
beforehand), so the `[]` branch is unreachable. -/
def date_fin_projet (ts : List Tache) (tot : Dates) : Int :=
  match ts with
  | [] => 0
  | t :: rest => maxList (tot.fin t.code) (rest.map (fun u => tot.fin u.code))

/-- One step of the sink pre-pass of `_calculer_dates_tard`: a task without
successors gets `date_fin_tard = date_fin_tot` and
`date_debut_tard = date_fin_tard - duree`; other tasks are left as they are. -/
def backward_sinks_pas (ts : List Tache) (tot : Dates) (st : Dates) (t : Tache) : Dates :=
  if (successeurs ts t).isEmpty then
    let f := tot.fin t.code
    { debut := update st.debut t.code (f - t.duree), fin := update st.fin t.code f }
  else st

/-- The sink pre-pass of `_calculer_dates_tard`, a loop over all tasks. -/
def backward_sinks (ts : List Tache) (tot : Dates) (st : Dates) : Dates :=
  ts.foldl (backward_sinks_pas ts tot) st

/-- The body of the reverse-order loop of `_calculer_dates_tard`:
`date_fin_tard` is overwritten only when the task has successors, and
`date_debut_tard` is always recomputed from the (possibly unchanged)
`date_fin_tard`. -/
def backward_step (ts : List Tache) (st : Dates) (c : String) : Dates :=
  match taches_dict ts c with
  | none => st
  | some t =>
    let f : Int := match successeurs ts t with
      | [] => st.fin c
      | s0 :: ss => minList (st.debut s0.code) (ss.map (fun u => st.debut u.code))
    { debut := update st.debut c (f - t.duree), fin := update st.fin c f }

/-- `_calculer_dates_tard`: initialise both dictionaries to the project end,
apply the sink pre-pass, then process the reversed topological order. -/
def calculer_dates_tard (ts : List Tache) (tot : Dates) : Dates :=
  let p := date_fin_projet ts tot
  let st0 : Dates := { debut := fun _ => p, fin := fun _ => p }
  ((tri_topologique ts).reverse).foldl (backward_step ts) (backward_sinks ts tot st0)

/-- `_calculer_marges`: `tache.marge_totale = debut_tard - debut_tot`. -/
def calculer_marge_totale (tot tard : Dates) (t : Tache) : Int :=
  tard.debut t.code - tot.debut t.code

/-- `_calculer_marges`: with successors, `marge_libre = min(debut_tot of the
successors) - fin_tot`; without successors, `marge_libre = marge_totale`. -/
def calculer_marge_libre (ts : List Tache) (tot tard : Dates) (t : Tache) : Int :=
  match successeurs ts t with
  | [] => calculer_marge_totale tot tard t
  | s0 :: ss => minList (tot.debut s0.code) (ss.map (fun u => tot.debut u.code)) - tot.fin t.code

/-- A task record after `_sauvegarder_resultats`: the input fields together
with the six derived fields written back by the calculator. -/
structure TacheCalculee where
  code : String
  duree : Int
  deps : List String
  date_debut_tot : Int
  date_fin_tot : Int
  date_debut_tard : Int
  date_fin_tard : Int
  marge_totale : Int
  marge_libre : Int
deriving DecidableEq, Repr

/-- The record written back for one task by `_sauvegarder_resultats`: the
computed dictionary entries plus the marges set by `_calculer_marges`. -/
def tache_calculee (ts : List Tache) (tot tard : Dates) (t : Tache) : TacheCalculee :=
  { code := t.code
    duree := t.duree
    deps := t.deps
    date_debut_tot := tot.debut t.code
    date_fin_tot := tot.fin t.code
    date_debut_tard := tard.debut t.code
    date_fin_tard := tard.fin t.code
    marge_totale := calculer_marge_totale tot tard t
    marge_libre := calculer_marge_libre ts tot tard t }

/-- `_sauvegarder_resultats`: copy the computed dictionaries (and the marges
set by `_calculer_marges`) onto every task of the collection. -/
def sauvegarder_resultats (ts : List Tache) (tot tard : Dates) : List TacheCalculee :=
  ts.map (tache_calculee ts tot tard)

/-- The `try` block of `calculer`: raise `ValueError` on a detected cycle,
otherwise run the passes in order and save the results. -/
def calculer_inner (ts : List Tache) : Except String (List TacheCalculee) :=
  if has_circular_dependency ts then
    Except.error "Dépendances circulaires détectées dans le projet !"
  else
    let tot := calculer_dates_tot ts
    let tard := calculer_dates_tard ts tot
    Except.ok (sauvegarder_resultats ts tot tard)

/-- `calculer`: empty collections succeed immediately without writing
anything; the `except Exception` handler catches the internal error, prints
it, and returns `False` — the caller receives only a boolean, and no record
is saved on failure. -/
def calculer (ts : List Tache) : Bool × List TacheCalculee :=
  if ts.isEmpty then (true, [])
  else
    match calculer_inner ts with
    | Except.error _ => (false, [])
    | Except.ok out => (true, out)

/-- `Tache.est_critique` (`models.py`): `marge_totale == 0` (the saved
records always carry a computed value, so the `None` guard of the source is
always passed). -/
def est_critique (r : TacheCalculee) : Bool := r.marge_totale == 0

/-- `get_chemin_critique`: the tasks with `marge_totale == 0`, sorted (stably,
as Python's `sorted`) by `date_debut_tot`. -/
def get_chemin_critique (out : List TacheCalculee) : List TacheCalculee :=
  List.insertionSort (fun a b => a.date_debut_tot ≤ b.date_debut_tot)
    (out.filter (fun t => t.marge_totale == 0))

/-- One dependency edge of the graph the calculator works on: `Step ts a b`
holds when the task found for code `a` lists `b` among its dependencies. -/
def Step (ts : List Tache) (a b : String) : Prop :=
  ∃ t, taches_dict ts a = some t ∧ b ∈ t.deps

/-- A dependency cycle: a nonempty `Step` path from some code back to itself. -/
def HasCycle (ts : List Tache) : Prop :=
  ∃ c, Relation.TransGen (Step ts) c c

/-- Task codes are pairwise distinct (the `unique_together` constraint of the
data model). -/
def CodesNodup (ts : List Tache) : Prop := (ts.map (fun t => t.code)).Nodup

/-- No task lists the same dependency twice (a many-to-many relation cannot
hold duplicate pairs). -/
def DepsNodup (ts : List Tache) : Prop := ∀ t ∈ ts, t.deps.Nodup

/-- Every dependency code resolves to a task of the collection. -/
def Resolved (ts : List Tache) : Prop :=
  ∀ t ∈ ts, ∀ d ∈ t.deps, ∃ u, u ∈ ts ∧ u.code = d

/-- The data-model invariants of a task collection (spec §3). -/
def WellFormed (ts : List Tache) : Prop :=
  CodesNodup ts ∧ DepsNodup ts ∧ Resolved ts

/-- The successors of a saved record inside the saved collection (the records
keep the `code`/`deps` fields of the tasks, so the relation coincides with
`successeurs` on the input collection). -/
def successeurs_res (out : List TacheCalculee) (r : TacheCalculee) : List TacheCalculee :=
  out.filter (fun s => r.code ∈ s.deps)

/-- The list of task codes of a collection. -/
def taskCodes (ts : List Tache) : List String := ts.map (fun t => t.code)

/-- The dependency list the calculator sees for a code (empty when the code
resolves to no task of the collection). -/
def deps_of (ts : List Tache) (c : String) : List String :=
  match taches_dict ts c with
  | some t => t.deps
  | none => []

/-- All codes the traversals can ever touch: task codes and dependency codes. -/
def univers (ts : List Tache) : List String :=
  taskCodes ts ++ (ts.map (fun t => t.deps)).flatten

/-- `a` occurs strictly before `b` in `l`. -/
def Precedes {α : Type} (l : List α) (a b : α) : Prop :=
  ∃ l₁ l₂, l = l₁ ++ l₂ ∧ a ∈ l₁ ∧ b ∈ l₂

/-- Invariant of the DFS cycle detection: a fully explored (visited, no
longer on the recursion stack) node has all its dependency edges inside the
visited set, cannot reach the recursion stack, and lies on no cycle. -/
def DfsInv (ts : List Tache) (V R : List String) : Prop :=
  ∀ v ∈ V, v ∉ R →
    (∀ d, Step ts v d → d ∈ V) ∧
    (∀ r ∈ R, ¬ Relation.ReflTransGen (Step ts) v r) ∧
    ¬ Relation.TransGen (Step ts) v v

/-- Specification of one `dfs` call returning `false`: the recursion stack is
restored, the visited set only grows and now holds the explored code, and the
invariant is preserved. -/
def DfsMain (ts : List Tache) (fuel : Nat) : Prop :=
  ∀ (c : String) (V R : List String),
    c ∉ V → c ∈ univers ts → (∀ r ∈ R, r ∈ V) → DfsInv ts V R →
    ((univers ts).toFinset \ V.toFinset).card < fuel →
    ∀ V' R', dfs ts fuel c V R = (false, V', R') →
      R' = R ∧ (∀ x ∈ V, x ∈ V') ∧ c ∈ V' ∧ DfsInv ts V' R

/-- Specification of the dependency loop of `dfs` ending without a cycle
report: stack unchanged, visited grows, invariant preserved, and every
processed dependency is visited and off the recursion stack. -/
def DfsFold (ts : List Tache) (fuel : Nat) : Prop :=
  ∀ (ds : List String) (V R : List String),
    (∀ d ∈ ds, d ∈ univers ts) → (∀ r ∈ R, r ∈ V) → DfsInv ts V R →
    ((univers ts).toFinset \ V.toFinset).card < fuel →
    ∀ V' R', ds.foldl (dfs_acc ts fuel) (false, V, R) = (false, V', R') →
      R' = R ∧ (∀ x ∈ V, x ∈ V') ∧ DfsInv ts V' R ∧ ∀ d ∈ ds, d ∈ V' ∧ d ∉ R

/-- Invariant of the Kahn BFS loop, for collections with pairwise distinct
task codes and duplicate-free dependency lists: the queue and the emitted
order are duplicate-free and disjoint, every in-degree counts the
not-yet-emitted dependencies of its task, the queue holds exactly the
unemitted tasks of in-degree zero, and every emitted task was emitted after
all its dependencies. -/
def KahnInv (ts : List Tache) (q : List String) (deg : String → Int)
    (ordre : List String) : Prop :=
  ordre.Nodup ∧ q.Nodup ∧
  (∀ c ∈ q, c ∈ taskCodes ts ∧ c ∉ ordre) ∧
  (∀ c ∈ ordre, c ∈ taskCodes ts) ∧
  (∀ c ∈ taskCodes ts,
    deg c = ((deps_of ts c).length : Int)
      - (((deps_of ts c).filter (fun d => d ∈ ordre)).length : Int)) ∧
  (∀ c ∈ taskCodes ts, (c ∈ q ↔ (deg c = 0 ∧ c ∉ ordre))) ∧
  (∀ l₁ c l₂, ordre = l₁ ++ c :: l₂ → ∀ d ∈ deps_of ts c, d ∈ l₁)

/-- Spec §8: the linear chain A→B→C with durations 3, 2, 4. -/
def exemple_chaine : List Tache :=
  [⟨"A", 3, []⟩, ⟨"B", 2, ["A"]⟩, ⟨"C", 4, ["B"]⟩]

/-- Spec §8: two parallel tasks feeding a common final task. -/
def exemple_paralleles : List Tache :=
  [⟨"A", 5, []⟩, ⟨"B", 3, []⟩, ⟨"D", 2, ["A", "B"]⟩]

/-- Spec §8: an independent sink that finishes before the critical chain. -/
def exemple_puits : List Tache :=
  [⟨"A", 5, []⟩, ⟨"B", 2, ["A"]⟩, ⟨"S", 1, []⟩]

/-- The two-task dependency cycle of spec §8. -/
def exemple_cycle : List Tache :=
  [⟨"A", 1, ["B"]⟩, ⟨"B", 1, ["A"]⟩]

/-- A task with a negative duration (no validation layer in between). -/
def exemple_duree_negative : List Tache :=
  [⟨"A", -3, []⟩]

/-- A task whose only dependency code resolves to no task of the collection. -/
def exemple_non_resolu_marge : List Tache :=
  [⟨"T", 5, ["X"]⟩]

/-- A task whose only dependency code resolves to no task of the collection. -/
def exemple_non_resolu_echec : List Tache :=
  [⟨"T", 7, ["X"]⟩]

/-- A task whose only dependency code resolves to no task of the collection. -/
def exemple_non_resolu_tri : List Tache :=
  [⟨"P", 2, ["ZZ"]⟩]

/-! ### Theorems -/

/-! #### Helper lemmas -/

theorem update_same (f : String → Int) (c : String) (v : Int) : update f c v c = v := by
  simp [update]

theorem update_other (f : String → Int) (c : String) (v : Int) {x : String} (h : x ≠ c) :
    update f c v x = f x := by
  simp [update, h]

theorem le_maxList (x : Int) (xs : List Int) : x ≤ maxList x xs := by
  induction xs generalizing x with
  | nil => simp [maxList]
  | cons y ys ih =>
    have h := ih (max x y)
    simp only [maxList, List.foldl_cons] at h ⊢
    exact le_trans (le_max_left x y) h

theorem maxList_le_of_mem {y : Int} {xs : List Int} (x : Int) (h : y ∈ xs) :
    y ≤ maxList x xs := by
  induction xs generalizing x with
  | nil => cases h
  | cons z zs ih =>
    simp only [maxList, List.foldl_cons]
    rcases List.mem_cons.mp h with rfl | h
    · exact le_trans (le_max_right x y) (le_maxList (max x y) zs)
    · exact ih (max x z) h

theorem maxList_mem (x : Int) (xs : List Int) : maxList x xs = x ∨ maxList x xs ∈ xs := by
  induction xs generalizing x with
  | nil => left; rfl
  | cons y ys ih =>
    simp only [maxList, List.foldl_cons] at *
    rcases ih (max x y) with h | h
    · rcases max_choice x y with h1 | h1
      · left; rw [h, h1]
      · right; rw [h, h1]; exact List.mem_cons_self y ys
    · right; exact List.mem_cons_of_mem y h

theorem minList_le (x : Int) (xs : List Int) : minList x xs ≤ x := by
  induction xs generalizing x with
  | nil => simp [minList]
  | cons y ys ih =>
    have h := ih (min x y)
    simp only [minList, List.foldl_cons] at h ⊢
    exact le_trans h (min_le_left x y)

theorem minList_le_of_mem {y : Int} {xs : List Int} (x : Int) (h : y ∈ xs) :
    minList x xs ≤ y := by
  induction xs generalizing x with
  | nil => cases h
  | cons z zs ih =>
    simp only [minList, List.foldl_cons]
    rcases List.mem_cons.mp h with rfl | h
    · exact le_trans (minList_le (min x y) zs) (min_le_right x y)
    · exact ih (min x z) h

theorem minList_mem (x : Int) (xs : List Int) : minList x xs = x ∨ minList x xs ∈ xs := by
  induction xs generalizing x with
  | nil => left; rfl
  | cons y ys ih =>
    simp only [minList, List.foldl_cons] at *
    rcases ih (min x y) with h | h
    · rcases min_choice x y with h1 | h1
      · left; rw [h, h1]
      · right; rw [h, h1]; exact List.mem_cons_self y ys
    · right; exact List.mem_cons_of_mem y h

theorem maxList_map_le {α : Type} (f : α → Int) {d d0 : α} {ds : List α}
    (h : d ∈ d0 :: ds) : f d ≤ maxList (f d0) (ds.map f) := by
  rcases List.mem_cons.mp h with rfl | h
  · exact le_maxList _ _
  · exact maxList_le_of_mem _ (List.mem_map_of_mem f h)

theorem maxList_map_mem {α : Type} (f : α → Int) (d0 : α) (ds : List α) :
    ∃ d ∈ d0 :: ds, maxList (f d0) (ds.map f) = f d := by
  rcases maxList_mem (f d0) (ds.map f) with h | h
  · exact ⟨d0, List.mem_cons_self _ _, h⟩
  · obtain ⟨d, hd, he⟩ := List.mem_map.mp h
    exact ⟨d, List.mem_cons_of_mem _ hd, he.symm⟩

theorem minList_map_le {α : Type} (f : α → Int) {d d0 : α} {ds : List α}
    (h : d ∈ d0 :: ds) : minList (f d0) (ds.map f) ≤ f d := by
  rcases List.mem_cons.mp h with rfl | h
  · exact minList_le _ _
  · exact minList_le_of_mem _ (List.mem_map_of_mem f h)

theorem minList_map_mem {α : Type} (f : α → Int) (d0 : α) (ds : List α) :
    ∃ d ∈ d0 :: ds, minList (f d0) (ds.map f) = f d := by
  rcases minList_mem (f d0) (ds.map f) with h | h
  · exact ⟨d0, List.mem_cons_self _ _, h⟩
  · obtain ⟨d, hd, he⟩ := List.mem_map.mp h
    exact ⟨d, List.mem_cons_of_mem _ hd, he.symm⟩

theorem taches_dict_mem {ts : List Tache} {c : String} {t : Tache}
    (h : taches_dict ts c = some t) : t ∈ ts ∧ t.code = c := by
  refine ⟨List.mem_of_find?_eq_some h, ?_⟩
  have h2 := List.find?_some h
  simpa using h2

theorem code_inj {ts : List Tache} (h : CodesNodup ts) {t u : Tache}
    (ht : t ∈ ts) (hu : u ∈ ts) (he : t.code = u.code) : t = u :=
  List.inj_on_of_nodup_map h ht hu he

theorem taches_dict_self {ts : List Tache} (h : CodesNodup ts) {t : Tache} (ht : t ∈ ts) :
    taches_dict ts t.code = some t := by
  cases hf : taches_dict ts t.code with
  | none =>
    have h2 := List.find?_eq_none.mp hf t ht
    simp at h2
  | some u =>
    obtain ⟨hu, hcode⟩ := taches_dict_mem hf
    exact congrArg some (code_inj h hu ht hcode)

theorem taskCodes_dict {ts : List Tache} {c : String} (h : c ∈ taskCodes ts) :
    ∃ t, taches_dict ts c = some t ∧ t ∈ ts ∧ t.code = c := by
  cases hf : taches_dict ts c with
  | none =>
    obtain ⟨t, ht, rfl⟩ := List.mem_map.mp h
    have h2 := List.find?_eq_none.mp hf t ht
    simp at h2
  | some t => exact ⟨t, rfl, (taches_dict_mem hf).1, (taches_dict_mem hf).2⟩

theorem mem_taskCodes {ts : List Tache} {t : Tache} (ht : t ∈ ts) :
    t.code ∈ taskCodes ts :=
  List.mem_map_of_mem _ ht

theorem filter_code_eq {ts : List Tache} (h : CodesNodup ts) {t : Tache} (ht : t ∈ ts) :
    ts.filter (fun u => u.code == t.code) = [t] := by
  induction ts with
  | nil => cases ht
  | cons u rest ih =>
    have hnd : u.code ∉ rest.map (fun v => v.code) ∧ CodesNodup rest := by
      simpa [CodesNodup] using h
    rcases List.mem_cons.mp ht with rfl | ht'
    · have hrest : rest.filter (fun v => v.code == t.code) = [] := by
        refine List.filter_eq_nil_iff.mpr ?_
        intro v hv hbeq
        exact hnd.1 (by
          have : v.code = t.code := by simpa using hbeq
          exact this ▸ List.mem_map_of_mem _ hv)
      simp [List.filter_cons, hrest]
    · have hne : (u.code == t.code) = false := by
        by_contra hb
        have : u.code = t.code := by
          cases hx : (u.code == t.code) with
          | false => exact absurd hx hb
          | true => simpa using hx
        exact hnd.1 (this ▸ List.mem_map_of_mem _ ht')
      simp [List.filter_cons, hne, ih hnd.2 ht']

theorem deps_of_task {ts : List Tache} (h : CodesNodup ts) {t : Tache} (ht : t ∈ ts) :
    deps_of ts t.code = t.deps := by
  simp [deps_of, taches_dict_self h ht]

theorem init_in_degree_task {ts : List Tache} (h : CodesNodup ts) {t : Tache} (ht : t ∈ ts) :
    init_in_degree ts t.code = (t.deps.length : Int) := by
  simp [init_in_degree, filter_code_eq h ht]

theorem mem_successeurs {ts : List Tache} {t s : Tache} :
    s ∈ successeurs ts t ↔ s ∈ ts ∧ t.code ∈ s.deps := by
  simp [successeurs]

theorem successeurs_codes_nodup {ts : List Tache} (h : CodesNodup ts) (t : Tache) :
    ((successeurs ts t).map (fun s => s.code)).Nodup := by
  have hsub : List.Sublist (successeurs ts t) ts := List.filter_sublist ts
  exact List.Nodup.sublist (List.Sublist.map _ hsub) h

theorem nodup_split_unique {α : Type} {l₁ l₂ m₁ m₂ : List α} {b : α}
    (h : (l₁ ++ b :: l₂).Nodup) (h2 : l₁ ++ b :: l₂ = m₁ ++ b :: m₂) :
    l₁ = m₁ ∧ l₂ = m₂ := by
  induction l₁ generalizing m₁ with
  | nil =>
    cases m₁ with
    | nil =>
      simp only [List.nil_append, List.cons.injEq, true_and] at h2
      exact ⟨rfl, h2⟩
    | cons x m₁' =>
      simp only [List.nil_append, List.cons_append, List.cons.injEq] at h2
      obtain ⟨h2a, h2b⟩ := h2
      exfalso
      have hb : b ∈ l₂ := by
        rw [h2b]
        exact List.mem_append_right _ (List.mem_cons_self _ _)
      exact (List.nodup_cons.mp (by simpa using h)).1 hb
  | cons a l₁' ih =>
    cases m₁ with
    | nil =>
      simp only [List.cons_append, List.nil_append, List.cons.injEq] at h2
      obtain ⟨h2a, h2b⟩ := h2
      exfalso
      have hmem : a ∈ l₁' ++ b :: l₂ := by
        rw [h2a]
        exact List.mem_append_right _ (List.mem_cons_self _ _)
      exact (List.nodup_cons.mp (by simpa using h)).1 hmem
    | cons x m₁' =>
      simp only [List.cons_append, List.cons.injEq] at h2
      obtain ⟨h2a, h2b⟩ := h2
      have hnd : (l₁' ++ b :: l₂).Nodup := (List.nodup_cons.mp (by simpa using h)).2
      obtain ⟨he1, he2⟩ := ih hnd h2b
      exact ⟨by rw [h2a, he1], he2⟩

theorem precedes_reverse {α : Type} {l : List α} {a b : α} (h : Precedes l a b) :
    Precedes l.reverse b a := by
  obtain ⟨l₁, l₂, rfl, ha, hb⟩ := h
  exact ⟨l₂.reverse, l₁.reverse, by simp, List.mem_reverse.mpr hb, List.mem_reverse.mpr ha⟩

theorem mem_prefix_of_precedes {α : Type} {l₁ l₂ : List α} {a b : α}
    (hnd : (l₁ ++ b :: l₂).Nodup) (hp : Precedes (l₁ ++ b :: l₂) a b) : a ∈ l₁ := by
  obtain ⟨p₁, p₂, hl, ha, hb⟩ := hp
  obtain ⟨q₁, q₂, hq⟩ := List.append_of_mem hb
  have hl2 : l₁ ++ b :: l₂ = (p₁ ++ q₁) ++ b :: q₂ := by
    rw [hl, hq, List.append_assoc]
  obtain ⟨he1, _⟩ := nodup_split_unique hnd hl2
  rw [he1]
  exact List.mem_append_left _ ha

/-! #### Lemmas about the topological sort -/

theorem mem_of_filter_length_eq {l S : List String}
    (h : (l.filter (fun d => d ∈ S)).length = l.length) : ∀ d ∈ l, d ∈ S := by
  have he : l.filter (fun d => d ∈ S) = l :=
    List.Sublist.eq_of_length (List.filter_sublist l) h
  intro d hd
  have h2 := List.filter_eq_self.mp he d hd
  simpa using h2

theorem exists_not_mem_of_filter_length_ne {l S : List String}
    (h : (l.filter (fun d => d ∈ S)).length ≠ l.length) : ∃ d ∈ l, d ∉ S := by
  by_contra hc
  push_neg at hc
  refine h ?_
  have he : l.filter (fun d => d ∈ S) = l :=
    List.filter_eq_self.mpr (by intro a ha; simpa using hc a ha)
  rw [he]

theorem length_filter_mem_append_singleton {l S : List String} {c : String}
    (hnd : l.Nodup) (hc : c ∉ S) :
    (l.filter (fun d => d ∈ S ++ [c])).length
      = (l.filter (fun d => d ∈ S)).length + (if c ∈ l then 1 else 0) := by
  induction l with
  | nil => simp
  | cons d rest ih =>
    obtain ⟨hd, hrest⟩ := List.nodup_cons.mp hnd
    have ih' := ih hrest
    by_cases hdc : d = c
    · have h1 : d ∈ S ++ [c] := by simp [hdc]
      have h2 : d ∉ S := by rw [hdc]; exact hc
      have h3 : c ∉ rest := by rw [← hdc]; exact hd
      have h4 : c ∈ d :: rest := by rw [hdc]; exact List.mem_cons_self _ _
      simp only [List.filter_cons, h1, h2, h3, h4, if_true, if_false, decide_True,
        decide_False, List.length_cons, ih', decide_eq_true_eq]
      simp [h3]
    · have h1 : (d ∈ S ++ [c]) ↔ (d ∈ S) := by
        simp [List.mem_append, hdc]
      have h5 : (c ∈ d :: rest) ↔ (c ∈ rest) := by
        rw [List.mem_cons]
        exact or_iff_right (fun h => hdc h.symm)
      by_cases h2 : d ∈ S
      · simp only [List.filter_cons, decide_eq_true_eq, h1, h2, if_true, List.length_cons, ih', h5]
        omega
      · simp only [List.filter_cons, decide_eq_true_eq, h1, h2, if_false, ih', h5]

theorem process_successeurs_spec (l : List Tache) (deg : String → Int)
    (hnd : (l.map (fun s => s.code)).Nodup) :
    (∀ x, (∀ s ∈ l, s.code ≠ x) → (process_successeurs l deg).1 x = deg x) ∧
    (∀ s ∈ l, (process_successeurs l deg).1 s.code = deg s.code - 1) ∧
    (process_successeurs l deg).2
      = (l.filter (fun s => deg s.code == 1)).map (fun s => s.code) := by
  induction l generalizing deg with
  | nil => exact ⟨fun _ _ => rfl, fun s hs => absurd hs (List.not_mem_nil s), rfl⟩
  | cons s rest ih =>
    simp only [List.map_cons, List.nodup_cons] at hnd
    obtain ⟨hs_notin, hrest⟩ := hnd
    obtain ⟨ih1, ih2, ih3⟩ := ih (update deg s.code (deg s.code - 1)) hrest
    have hfst : (process_successeurs (s :: rest) deg).1
        = (process_successeurs rest (update deg s.code (deg s.code - 1))).1 := by
      simp only [process_successeurs]
      split <;> rfl
    have hsnd : (process_successeurs (s :: rest) deg).2
        = if update deg s.code (deg s.code - 1) s.code == 0 then
            s.code :: (process_successeurs rest (update deg s.code (deg s.code - 1))).2
          else (process_successeurs rest (update deg s.code (deg s.code - 1))).2 := by
      simp only [process_successeurs]
      split <;> simp_all
    have hagree : ∀ u ∈ rest, update deg s.code (deg s.code - 1) u.code = deg u.code := by
      intro u hu
      refine update_other _ _ _ ?_
      intro he
      exact hs_notin (he ▸ List.mem_map_of_mem _ hu)
    refine ⟨?_, ?_, ?_⟩
    · intro x hx
      rw [hfst, ih1 x (fun u hu => hx u (List.mem_cons_of_mem _ hu)),
        update_other _ _ _ (fun he => (hx s (List.mem_cons_self _ _)) he.symm)]
    · intro u hu
      rcases List.mem_cons.mp hu with rfl | hu'
      · rw [hfst, ih1 u.code (fun v hv he => hs_notin (he ▸ List.mem_map_of_mem _ hv)),
          update_same]
      · rw [hfst, ih2 u hu', hagree u hu']
    · rw [hsnd, ih3]
      have hcond : (update deg s.code (deg s.code - 1) s.code == 0) = (deg s.code == 1) := by
        rw [update_same]
        by_cases h : deg s.code = 1
        · simp [h]
        · have h2 : deg s.code - 1 ≠ 0 := by omega
          simp [h, h2]
      have hfil : rest.filter (fun u => update deg s.code (deg s.code - 1) u.code == 1)
          = rest.filter (fun u => deg u.code == 1) := by
        refine List.filter_congr ?_
        intro u hu
        rw [hagree u hu]
      rw [hcond, hfil, List.filter_cons]
      cases h : (deg s.code == 1) <;> simp [h]

theorem kahn_loop_spec {ts : List Tache} (h1 : CodesNodup ts) (h2 : DepsNodup ts) :
    ∀ fuel q deg ordre, KahnInv ts q deg ordre →
      ts.length + 1 ≤ fuel + ordre.length →
      ∃ deg2, KahnInv ts [] deg2 (kahn_loop ts fuel q deg ordre) := by
  intro fuel
  induction fuel with
  | zero =>
    intro q deg ordre hinv hbound
    exfalso
    obtain ⟨hond, _, _, homem, _⟩ := hinv
    have hsub : ordre ⊆ taskCodes ts := fun c hc => (homem c hc)
    have hlen : ordre.length ≤ (taskCodes ts).length :=
      List.Subperm.length_le (List.Nodup.subperm hond hsub)
    have hTlen : (taskCodes ts).length = ts.length := by simp [taskCodes]
    omega
  | succ fuel ih =>
    intro q deg ordre hinv hbound
    match q with
    | [] => exact ⟨deg, hinv⟩
    | c :: qt =>
      obtain ⟨hond, hqnd, hqmem, homem, hdeg, hqiff, htopo⟩ := hinv
      have hcq : c ∈ c :: qt := List.mem_cons_self _ _
      obtain ⟨hcT, hcO⟩ := hqmem c hcq
      obtain ⟨t, hdict, htmem, htcode⟩ := taskCodes_dict hcT
      have hdegc : deg c = 0 := ((hqiff c hcT).mp hcq).1
      have hdeg0_deps : ∀ x ∈ taskCodes ts, deg x = 0 → ∀ d ∈ deps_of ts x, d ∈ ordre := by
        intro x hxT hx0 d hd
        have hv := hdeg x hxT
        rw [hx0] at hv
        have hle := List.length_filter_le (fun d => d ∈ ordre) (deps_of ts x)
        have hlen : ((deps_of ts x).filter (fun d => d ∈ ordre)).length
            = (deps_of ts x).length := by omega
        exact mem_of_filter_length_eq hlen d hd
      have hordre_deg0 : ∀ x ∈ taskCodes ts, x ∈ ordre → deg x = 0 := by
        intro x hxT hxO
        obtain ⟨l₁, l₂, hsplit⟩ := List.append_of_mem hxO
        have hdeps : ∀ d ∈ deps_of ts x, d ∈ ordre := by
          intro d hd
          have hmem := htopo l₁ x l₂ hsplit d hd
          rw [hsplit]
          exact List.mem_append_left _ hmem
        have hv := hdeg x hxT
        have hflen : (deps_of ts x).filter (fun d => d ∈ ordre) = deps_of ts x :=
          List.filter_eq_self.mpr (by intro a ha; simpa using hdeps a ha)
        rw [hflen] at hv
        omega
      have hdepsc : ∀ d ∈ deps_of ts c, d ∈ ordre := hdeg0_deps c hcT hdegc
      have hsuccnd := successeurs_codes_nodup h1 t
      obtain ⟨hP1, hP2, hP3⟩ := process_successeurs_spec (successeurs ts t) deg hsuccnd
      set deg2 := (process_successeurs (successeurs ts t) deg).1 with hdeg2def
      set pushed := (process_successeurs (successeurs ts t) deg).2 with hpusheddef
      have hsucc_iff : ∀ u, u ∈ ts → (u ∈ successeurs ts t ↔ c ∈ u.deps) := by
        intro u hu
        rw [mem_successeurs, htcode]
        exact ⟨fun h => h.2, fun h => ⟨hu, h⟩⟩
      have hnot_succ : ∀ x, ∀ u, u ∈ ts → u.code = x → c ∉ u.deps →
          ∀ s, s ∈ successeurs ts t → s.code ≠ x := by
        intro x u hu hux hcu s hs he
        have hsmem := (mem_successeurs.mp hs).1
        have hsu : s = u := code_inj h1 hsmem hu (by rw [he, hux])
        have hcs : c ∈ s.deps := htcode ▸ (mem_successeurs.mp hs).2
        exact hcu (hsu ▸ hcs)
      have hdeg2_of_dep : ∀ u, u ∈ ts → c ∈ u.deps → deg2 u.code = deg u.code - 1 := by
        intro u hu hcu
        exact hP2 u ((hsucc_iff u hu).mpr hcu)
      have hdeg2_of_nodep : ∀ x, ∀ u, u ∈ ts → u.code = x → c ∉ u.deps → deg2 x = deg x := by
        intro x u hu hux hcu
        exact hP1 x (hnot_succ x u hu hux hcu)
      have hpushed_mem : ∀ x, x ∈ pushed ↔
          ∃ s, s ∈ successeurs ts t ∧ deg s.code = 1 ∧ s.code = x := by
        intro x
        rw [hP3]
        simp only [List.mem_map, List.mem_filter, beq_iff_eq]
        constructor
        · rintro ⟨s, ⟨hs, hd1⟩, hsx⟩
          exact ⟨s, hs, hd1, hsx⟩
        · rintro ⟨s, hs, hd1, hsx⟩
          exact ⟨s, ⟨hs, hd1⟩, hsx⟩
      have hpushed_task : ∀ x ∈ taskCodes ts, ∀ u, u ∈ ts → u.code = x →
          (x ∈ pushed ↔ (c ∈ u.deps ∧ deg x = 1)) := by
        intro x hxT u hu hux
        rw [hpushed_mem x]
        constructor
        · rintro ⟨s, hs, hdeg1, hsx⟩
          have hsu : s = u := code_inj h1 (mem_successeurs.mp hs).1 hu (by rw [hsx, hux])
          have hcs : c ∈ s.deps := htcode ▸ (mem_successeurs.mp hs).2
          refine ⟨hsu ▸ hcs, by rw [← hsx]; exact hdeg1⟩
        · rintro ⟨hcu, hdeg1⟩
          exact ⟨u, (hsucc_iff u hu).mpr hcu, by rw [hux]; exact hdeg1, hux⟩
      have hpushed_T : ∀ x, x ∈ pushed → x ∈ taskCodes ts := by
        intro x hx
        obtain ⟨s, hs, _, hsx⟩ := (hpushed_mem x).mp hx
        rw [← hsx]
        exact mem_taskCodes (mem_successeurs.mp hs).1
      have hqt_nd : qt.Nodup := (List.nodup_cons.mp hqnd).2
      have hc_qt : c ∉ qt := (List.nodup_cons.mp hqnd).1
      have hpushed_nd : pushed.Nodup := by
        rw [hP3]
        exact List.Nodup.sublist (List.Sublist.map _ (List.filter_sublist _)) hsuccnd
      have hpushed_not_ordre : ∀ x, x ∈ pushed → x ∉ ordre ∧ x ≠ c := by
        intro x hx
        obtain ⟨s, hs, hdeg1, hsx⟩ := (hpushed_mem x).mp hx
        have hxT := hpushed_T x hx
        constructor
        · intro hxO
          have h0 := hordre_deg0 x hxT hxO
          rw [hsx] at hdeg1
          omega
        · intro he
          rw [hsx, he] at hdeg1
          omega
      have hunfold : kahn_loop ts (fuel+1) (c :: qt) deg ordre
          = kahn_loop ts fuel (qt ++ pushed) deg2 (ordre ++ [c]) := by
        simp only [kahn_loop, hdict]
      have hnew_ordre_nd : (ordre ++ [c]).Nodup := by
        rw [List.nodup_append]
        refine ⟨hond, List.nodup_singleton c, ?_⟩
        intro a ha hb
        rw [List.mem_singleton] at hb
        subst hb
        exact hcO ha
      have hqt_pushed_nd : (qt ++ pushed).Nodup := by
        rw [List.nodup_append]
        refine ⟨hqt_nd, hpushed_nd, ?_⟩
        intro x hxq hxp
        obtain ⟨s, hs, hdeg1, hsx⟩ := (hpushed_mem x).mp hxp
        have h0 := ((hqiff x (hpushed_T x hxp)).mp (List.mem_cons_of_mem _ hxq)).1
        rw [hsx] at hdeg1
        omega
      have hnew_qmem : ∀ x ∈ qt ++ pushed, x ∈ taskCodes ts ∧ x ∉ ordre ++ [c] := by
        intro x hx
        rcases List.mem_append.mp hx with hxq | hxp
        · obtain ⟨hxT, hxO⟩ := hqmem x (List.mem_cons_of_mem _ hxq)
          refine ⟨hxT, ?_⟩
          intro hmem
          rcases List.mem_append.mp hmem with h | h
          · exact hxO h
          · rw [List.mem_singleton] at h
            subst h
            exact hc_qt hxq
        · obtain ⟨hxO, hxc⟩ := hpushed_not_ordre x hxp
          refine ⟨hpushed_T x hxp, ?_⟩
          intro hmem
          rcases List.mem_append.mp hmem with h | h
          · exact hxO h
          · rw [List.mem_singleton] at h
            exact hxc h
      have hnew_omem : ∀ x ∈ ordre ++ [c], x ∈ taskCodes ts := by
        intro x hx
        rcases List.mem_append.mp hx with h | h
        · exact homem x h
        · rw [List.mem_singleton] at h
          subst h
          exact hcT
      have hnew_deg : ∀ x ∈ taskCodes ts,
          deg2 x = ((deps_of ts x).length : Int)
            - (((deps_of ts x).filter (fun d => d ∈ ordre ++ [c])).length : Int) := by
        intro x hxT
        obtain ⟨u, hudict, humem, hucode⟩ := taskCodes_dict hxT
        have hdeps_eq : deps_of ts x = u.deps := by simp [deps_of, hudict]
        have hund : u.deps.Nodup := h2 u humem
        have hcount := length_filter_mem_append_singleton (l := u.deps) (S := ordre)
          (c := c) hund hcO
        have hv := hdeg x hxT
        by_cases hcu : c ∈ u.deps
        · have hd2 : deg2 x = deg x - 1 := by
            rw [← hucode]
            exact hdeg2_of_dep u humem hcu
          rw [if_pos hcu] at hcount
          rw [hd2, hv, hdeps_eq, hcount]
          push_cast
          ring
        · have hd2 : deg2 x = deg x := hdeg2_of_nodep x u humem hucode hcu
          rw [if_neg hcu] at hcount
          rw [hd2, hv, hdeps_eq, hcount]
          push_cast
          ring
      have hnew_qiff : ∀ x ∈ taskCodes ts,
          (x ∈ qt ++ pushed ↔ (deg2 x = 0 ∧ x ∉ ordre ++ [c])) := by
        intro x hxT
        obtain ⟨u, hudict, humem, hucode⟩ := taskCodes_dict hxT
        have hdeps_eq : deps_of ts x = u.deps := by simp [deps_of, hudict]
        by_cases hxc : x = c
        · subst hxc
          constructor
          · intro hmem
            rcases List.mem_append.mp hmem with h | h
            · exact absurd h hc_qt
            · obtain ⟨s, hs, hdeg1, hsx⟩ := (hpushed_mem x).mp h
              rw [hsx] at hdeg1
              exfalso
              omega
          · rintro ⟨_, hnot⟩
            exact absurd (List.mem_append_right _ (List.mem_cons_self _ _)) hnot
        · by_cases hcu : c ∈ u.deps
          · have hd2 : deg2 x = deg x - 1 := by
              rw [← hucode]
              exact hdeg2_of_dep u humem hcu
            have hxq : x ∉ c :: qt := by
              intro hxq
              have h0 := ((hqiff x hxT).mp hxq).1
              have hco := hdeg0_deps x hxT h0 c (by rw [hdeps_eq]; exact hcu)
              exact hcO hco
            have hxO : x ∉ ordre := by
              intro hxO
              have h0 := hordre_deg0 x hxT hxO
              have hco := hdeg0_deps x hxT h0 c (by rw [hdeps_eq]; exact hcu)
              exact hcO hco
            constructor
            · intro hmem
              rcases List.mem_append.mp hmem with h | h
              · exact absurd (List.mem_cons_of_mem _ h) hxq
              · have hx1 := ((hpushed_task x hxT u humem hucode).mp h).2
                refine ⟨by omega, ?_⟩
                intro hmem2
                rcases List.mem_append.mp hmem2 with h' | h'
                · exact hxO h'
                · rw [List.mem_singleton] at h'
                  exact hxc h'
            · rintro ⟨hz, _⟩
              refine List.mem_append_right _ ?_
              exact (hpushed_task x hxT u humem hucode).mpr ⟨hcu, by omega⟩
          · have hd2 : deg2 x = deg x := hdeg2_of_nodep x u humem hucode hcu
            have hmemq : x ∈ qt ++ pushed ↔ x ∈ c :: qt := by
              constructor
              · intro hmem
                rcases List.mem_append.mp hmem with h | h
                · exact List.mem_cons_of_mem _ h
                · exact absurd (((hpushed_task x hxT u humem hucode).mp h).1) hcu
              · intro hmem
                rcases List.mem_cons.mp hmem with h | h
                · exact absurd h hxc
                · exact List.mem_append_left _ h
            rw [hmemq, hqiff x hxT, hd2]
            constructor
            · rintro ⟨hz, hO⟩
              refine ⟨hz, ?_⟩
              intro hmem
              rcases List.mem_append.mp hmem with h | h
              · exact hO h
              · rw [List.mem_singleton] at h
                exact hxc h
            · rintro ⟨hz, hO⟩
              exact ⟨hz, fun h => hO (List.mem_append_left _ h)⟩
      have hnew_topo : ∀ l₁ x l₂, ordre ++ [c] = l₁ ++ x :: l₂ →
          ∀ d ∈ deps_of ts x, d ∈ l₁ := by
        intro l₁ x l₂ hsplit d hd
        rcases List.append_eq_append_iff.mp hsplit with ⟨a', ha1, ha2⟩ | ⟨c', hc1, hc2⟩
        · cases a' with
          | nil =>
            simp only [List.nil_append] at ha2
            obtain ⟨he1, he2⟩ := List.cons_eq_cons.mp ha2
            rw [List.append_nil] at ha1
            rw [ha1]
            rw [← he1] at hd
            exact hdepsc d hd
          | cons z a'' =>
            exfalso
            simp only [List.cons_append] at ha2
            obtain ⟨_, he2⟩ := List.cons_eq_cons.mp ha2
            exact absurd he2.symm (by simp)
        · cases c' with
          | nil =>
            simp only [List.nil_append] at hc2
            obtain ⟨he1, he2⟩ := List.cons_eq_cons.mp hc2
            rw [List.append_nil] at hc1
            rw [← hc1]
            rw [he1] at hd
            exact hdepsc d hd
          | cons z c'' =>
            simp only [List.cons_append] at hc2
            obtain ⟨he1, he2⟩ := List.cons_eq_cons.mp hc2
            have hsplit2 : ordre = l₁ ++ x :: c'' := by
              rw [hc1, he1]
            exact htopo l₁ x c'' hsplit2 d hd
      rw [hunfold]
      refine ih (qt ++ pushed) deg2 (ordre ++ [c])
        ⟨hnew_ordre_nd, hqt_pushed_nd, hnew_qmem, hnew_omem, hnew_deg, hnew_qiff, hnew_topo⟩ ?_
      simp only [List.length_append, List.length_singleton]
      omega

theorem tri_topologique_inv {ts : List Tache} (h1 : CodesNodup ts) (h2 : DepsNodup ts) :
    ∃ deg2, KahnInv ts [] deg2 (tri_topologique ts) := by
  have hinit : KahnInv ts
      ((ts.filter (fun t => init_in_degree ts t.code == 0)).map (fun t => t.code))
      (init_in_degree ts) [] := by
    refine ⟨List.nodup_nil, ?_, ?_, ?_, ?_, ?_, ?_⟩
    · exact List.Nodup.sublist (List.Sublist.map _ (List.filter_sublist _)) h1
    · intro c hc
      obtain ⟨t, ht, rfl⟩ := List.mem_map.mp hc
      exact ⟨mem_taskCodes (List.mem_of_mem_filter ht), List.not_mem_nil _⟩
    · intro c hc
      exact absurd hc (List.not_mem_nil c)
    · intro c hcT
      obtain ⟨u, hudict, humem, hucode⟩ := taskCodes_dict hcT
      have hdeps : deps_of ts c = u.deps := by simp [deps_of, hudict]
      have hfil : u.deps.filter (fun d => d ∈ ([] : List String)) = [] :=
        List.filter_eq_nil_iff.mpr (by simp)
      rw [hdeps, ← hucode, init_in_degree_task h1 humem, hfil]
      simp
    · intro c hcT
      obtain ⟨u, hudict, humem, hucode⟩ := taskCodes_dict hcT
      constructor
      · intro hc
        obtain ⟨v, hv, hvc⟩ := List.mem_map.mp hc
        have hvf := List.mem_filter.mp hv
        refine ⟨by rw [← hvc]; simpa using hvf.2, List.not_mem_nil _⟩
      · rintro ⟨hz, _⟩
        refine List.mem_map.mpr ⟨u, ?_, hucode⟩
        refine List.mem_filter.mpr ⟨humem, ?_⟩
        simp only [hucode, hz]
        simp
    · intro l₁ c l₂ h
      exact absurd h.symm (by simp)
  obtain ⟨deg2, hk⟩ := kahn_loop_spec h1 h2 (2 * ts.length + 1)
    ((ts.filter (fun t => init_in_degree ts t.code == 0)).map (fun t => t.code))
    (init_in_degree ts) [] hinit (by simp only [List.length_nil]; omega)
  exact ⟨deg2, by simpa [tri_topologique] using hk⟩

theorem tri_nodup {ts : List Tache} (h1 : CodesNodup ts) (h2 : DepsNodup ts) :
    (tri_topologique ts).Nodup := by
  obtain ⟨d, hk⟩ := tri_topologique_inv h1 h2
  exact hk.1

theorem tri_mem_taskCodes {ts : List Tache} (h1 : CodesNodup ts) (h2 : DepsNodup ts) :
    ∀ c ∈ tri_topologique ts, c ∈ taskCodes ts := by
  obtain ⟨d, hk⟩ := tri_topologique_inv h1 h2
  exact hk.2.2.2.1

theorem tri_topo_prefix {ts : List Tache} (h1 : CodesNodup ts) (h2 : DepsNodup ts) :
    ∀ l₁ c l₂, tri_topologique ts = l₁ ++ c :: l₂ → ∀ d ∈ deps_of ts c, d ∈ l₁ := by
  obtain ⟨d, hk⟩ := tri_topologique_inv h1 h2
  exact hk.2.2.2.2.2.2

theorem tri_unemitted {ts : List Tache} (h1 : CodesNodup ts) (h2 : DepsNodup ts) :
    ∀ c ∈ taskCodes ts, c ∉ tri_topologique ts →
      ∃ d ∈ deps_of ts c, d ∉ tri_topologique ts := by
  obtain ⟨dg, hk⟩ := tri_topologique_inv h1 h2
  intro c hcT hcO
  have hiff := hk.2.2.2.2.2.1 c hcT
  have hdg := hk.2.2.2.2.1 c hcT
  have hne : dg c ≠ 0 := by
    intro h0
    exact absurd (hiff.mpr ⟨h0, hcO⟩) (List.not_mem_nil c)
  have hlen : ((deps_of ts c).filter (fun d => d ∈ tri_topologique ts)).length
      ≠ (deps_of ts c).length := by
    intro he
    apply hne
    rw [hdg, he]
    ring
  exact exists_not_mem_of_filter_length_ne hlen

theorem unresolved_not_emitted {ts : List Tache} (h1 : CodesNodup ts) (h2 : DepsNodup ts)
    {t : Tache} (ht : t ∈ ts) {d : String} (hd : d ∈ t.deps)
    (hno : ∀ u ∈ ts, u.code ≠ d) : t.code ∉ tri_topologique ts := by
  intro hmem
  obtain ⟨l₁, l₂, hsplit⟩ := List.append_of_mem hmem
  have hdl := tri_topo_prefix h1 h2 l₁ t.code l₂ hsplit d
    (by rw [deps_of_task h1 ht]; exact hd)
  have hdo : d ∈ tri_topologique ts := by
    rw [hsplit]
    exact List.mem_append_left _ hdl
  have hdT := tri_mem_taskCodes h1 h2 d hdo
  obtain ⟨u, hu, huc⟩ := List.mem_map.mp hdT
  exact hno u hu huc

theorem hasCycle_of_closed_succ {ts : List Tache} (S : Finset String) (hne : S.Nonempty)
    (h : ∀ c ∈ S, ∃ d, d ∈ S ∧ Step ts c d) : HasCycle ts := by
  classical
  obtain ⟨c₀, hc₀⟩ := hne
  set f : String → String := fun c => if hc : c ∈ S then (h c hc).choose else c with hfdef
  have hf : ∀ c, c ∈ S → f c ∈ S ∧ Step ts c (f c) := by
    intro c hc
    have hspec := (h c hc).choose_spec
    simp only [hfdef, dif_pos hc]
    exact hspec
  have hgS : ∀ n, f^[n] c₀ ∈ S := by
    intro n
    induction n with
    | zero => simpa using hc₀
    | succ n ihn =>
      rw [Function.iterate_succ_apply']
      exact (hf _ ihn).1
  have hstep : ∀ n, Step ts (f^[n] c₀) (f^[n+1] c₀) := by
    intro n
    rw [Function.iterate_succ_apply']
    exact (hf _ (hgS n)).2
  have hchain : ∀ i j, i < j → Relation.TransGen (Step ts) (f^[i] c₀) (f^[j] c₀) := by
    intro i j hij
    induction j with
    | zero => omega
    | succ j ihj =>
      rcases Nat.lt_succ_iff_lt_or_eq.mp hij with h' | h'
      · exact Relation.TransGen.tail (ihj h') (hstep j)
      · rw [h']
        exact Relation.TransGen.single (hstep j)
  have hmap : ∀ n ∈ Finset.range (S.card + 1), f^[n] c₀ ∈ S := fun n _ => hgS n
  obtain ⟨i, hi, j, hj, hij, heq⟩ :=
    Finset.exists_ne_map_eq_of_card_lt_of_maps_to (by simp) hmap
  rcases lt_or_gt_of_ne hij with h' | h'
  · have hc := hchain i j h'
    rw [← heq] at hc
    exact ⟨f^[i] c₀, hc⟩
  · have hc := hchain j i h'
    rw [heq] at hc
    exact ⟨f^[j] c₀, hc⟩

theorem tri_complete {ts : List Tache} (h1 : CodesNodup ts) (h2 : DepsNodup ts)
    (h3 : Resolved ts) (h4 : ¬ HasCycle ts) : ∀ t ∈ ts, t.code ∈ tri_topologique ts := by
  classical
  by_contra hc
  push_neg at hc
  obtain ⟨t0, ht0, hnot⟩ := hc
  apply h4
  refine hasCycle_of_closed_succ
    ((taskCodes ts).toFinset.filter (fun c => c ∉ tri_topologique ts)) ?_ ?_
  · refine ⟨t0.code, ?_⟩
    rw [Finset.mem_filter, List.mem_toFinset]
    exact ⟨mem_taskCodes ht0, hnot⟩
  · intro c hcS
    rw [Finset.mem_filter, List.mem_toFinset] at hcS
    obtain ⟨hcT, hcNot⟩ := hcS
    obtain ⟨d, hd, hdnot⟩ := tri_unemitted h1 h2 c hcT hcNot
    obtain ⟨u, hudict, humem, hucode⟩ := taskCodes_dict hcT
    have hdu : d ∈ u.deps := by
      have hde : deps_of ts c = u.deps := by simp [deps_of, hudict]
      rw [← hde]
      exact hd
    obtain ⟨w, hw, hwcode⟩ := h3 u humem d hdu
    have hdT : d ∈ taskCodes ts := by
      rw [← hwcode]
      exact mem_taskCodes hw
    refine ⟨d, ?_, u, hudict, hdu⟩
    rw [Finset.mem_filter, List.mem_toFinset]
    exact ⟨hdT, hdnot⟩

/-! #### Lemmas about the cycle detection -/

theorem dfs_succ_eq (ts : List Tache) (fuel : Nat) (c : String) (V R : List String) :
    dfs ts (fuel+1) c V R =
      (match (match taches_dict ts c with
          | some t => t.deps
          | none => []).foldl (dfs_acc ts fuel) (false, c :: V, c :: R) with
        | (true, v, rs) => (true, v, rs)
        | (false, v, rs) => (false, v, rs.erase c)) := rfl

theorem dfs_acc_true (ts : List Tache) (fuel : Nat) (v rs : List String)
    (ds : List String) : ds.foldl (dfs_acc ts fuel) (true, v, rs) = (true, v, rs) := by
  induction ds with
  | nil => rfl
  | cons d ds ih => exact ih

theorem mem_univers_of_task {ts : List Tache} {t : Tache} (ht : t ∈ ts) :
    t.code ∈ univers ts :=
  List.mem_append_left _ (mem_taskCodes ht)

theorem mem_univers_of_dep {ts : List Tache} {t : Tache} (ht : t ∈ ts) {d : String}
    (hd : d ∈ t.deps) : d ∈ univers ts := by
  refine List.mem_append_right _ ?_
  rw [List.mem_flatten]
  exact ⟨t.deps, List.mem_map_of_mem _ ht, hd⟩

theorem univers_card_lt_fuel (ts : List Tache) :
    ((univers ts).toFinset).card < fuel_dfs ts := by
  have h1 : (univers ts).toFinset.card ≤ (univers ts).length := List.toFinset_card_le _
  have h2 : (univers ts).length
      = ts.length + ((ts.map (fun t => t.deps)).flatten).length := by
    simp [univers, taskCodes]
  have h3 : ((ts.map (fun t => t.deps)).flatten).length
      = (ts.map (fun t => t.deps.length)).sum := by
    rw [List.length_flatten, List.map_map]
    rfl
  simp only [fuel_dfs]
  omega

theorem card_sdiff_cons {U : Finset String} {V : List String} {c : String}
    (hcU : c ∈ U) (hcV : c ∉ V) :
    (U \ (c :: V).toFinset).card + 1 = (U \ V.toFinset).card := by
  rw [List.toFinset_cons, Finset.sdiff_insert]
  have hmem : c ∈ U \ V.toFinset := by
    rw [Finset.mem_sdiff, List.mem_toFinset]
    exact ⟨hcU, hcV⟩
  rw [Finset.card_erase_of_mem hmem]
  have := Finset.card_pos.mpr ⟨c, hmem⟩
  omega

theorem card_sdiff_mono {U : Finset String} {V W : List String} (h : ∀ x ∈ V, x ∈ W) :
    (U \ W.toFinset).card ≤ (U \ V.toFinset).card := by
  apply Finset.card_le_card
  intro x hx
  rw [Finset.mem_sdiff, List.mem_toFinset] at hx ⊢
  exact ⟨hx.1, fun hm => hx.2 (h x hm)⟩

theorem dfsInv_reach {ts : List Tache} {V R : List String} (hinv : DfsInv ts V R)
    {v x : String} (hv : v ∈ V) (hvr : v ∉ R)
    (hreach : Relation.ReflTransGen (Step ts) v x) : x ∈ V ∧ x ∉ R := by
  induction hreach with
  | refl => exact ⟨hv, hvr⟩
  | tail hab hbc ih =>
    obtain ⟨hbV, hbR⟩ := ih
    obtain ⟨hcl, hnr, _⟩ := hinv _ hbV hbR
    refine ⟨hcl _ hbc, ?_⟩
    intro hcR
    exact hnr _ hcR (Relation.ReflTransGen.single hbc)

theorem dfs_spec (ts : List Tache) : ∀ fuel, DfsMain ts fuel ∧ DfsFold ts fuel := by
  intro fuel
  induction fuel with
  | zero =>
    constructor
    · intro c V R _ _ _ _ hcard
      omega
    · intro ds V R _ _ _ hcard
      omega
  | succ fuel ih =>
    obtain ⟨ihmain, ihfold⟩ := ih
    have hmain : DfsMain ts (fuel+1) := by
      intro c V R hcV hcU hRV hinv hcard V' R' heq
      rw [dfs_succ_eq] at heq
      have hRV' : ∀ r ∈ c :: R, r ∈ c :: V := by
        intro r hr
        rcases List.mem_cons.mp hr with rfl | hr'
        · exact List.mem_cons_self _ _
        · exact List.mem_cons_of_mem _ (hRV r hr')
      have hinv' : DfsInv ts (c :: V) (c :: R) := by
        intro v hv hvr
        have hvc : v ≠ c := by
          intro he
          exact hvr (he ▸ List.mem_cons_self _ _)
        have hvV : v ∈ V := by
          rcases List.mem_cons.mp hv with he | hv'
          · exact absurd he hvc
          · exact hv'
        have hvR : v ∉ R := fun hr => hvr (List.mem_cons_of_mem _ hr)
        obtain ⟨hcl, hnr, hnc⟩ := hinv v hvV hvR
        refine ⟨fun d hd => List.mem_cons_of_mem _ (hcl d hd), ?_, hnc⟩
        intro r hr hreach
        rcases List.mem_cons.mp hr with rfl | hrR
        · exact hcV (dfsInv_reach hinv hvV hvR hreach).1
        · exact hnr r hrR hreach
      have hcard' : ((univers ts).toFinset \ (c :: V).toFinset).card < fuel := by
        have hdrop := card_sdiff_cons (List.mem_toFinset.mpr hcU) hcV
        omega
      cases hdict : taches_dict ts c with
      | none =>
        rw [hdict] at heq
        simp only [List.foldl_nil] at heq
        have hV' : c :: V = V' ∧ (c :: R).erase c = R' := by
          refine ⟨?_, ?_⟩
          · exact congrArg (fun p => p.2.1) heq
          · exact congrArg (fun p => p.2.2) heq
        obtain ⟨hV', hR'⟩ := hV'
        rw [List.erase_cons_head] at hR'
        refine ⟨hR'.symm, ?_, ?_, ?_⟩
        · intro x hx
          rw [← hV']
          exact List.mem_cons_of_mem _ hx
        · rw [← hV']
          exact List.mem_cons_self _ _
        · rw [← hV']
          intro v hv hvr
          by_cases hvc : v = c
          · subst hvc
            have hnostep : ∀ d, ¬ Step ts v d := by
              intro d hstep
              obtain ⟨t', hdict', _⟩ := hstep
              rw [hdict] at hdict'
              cases hdict'
            refine ⟨fun d hd => absurd hd (hnostep d), ?_, ?_⟩
            · intro r hr hreach
              rcases Relation.ReflTransGen.cases_head hreach with rfl | ⟨d, hstep, _⟩
              · exact hcV (hRV _ hr)
              · exact hnostep d hstep
            · intro hcyc
              obtain ⟨d, hstep, _⟩ := Relation.TransGen.head'_iff.mp hcyc
              exact hnostep d hstep
          · have hvV : v ∈ V := by
              rcases List.mem_cons.mp hv with he | hv'
              · exact absurd he hvc
              · exact hv'
            obtain ⟨hcl, hnr, hnc⟩ := hinv v hvV hvr
            exact ⟨fun d hd => List.mem_cons_of_mem _ (hcl d hd), hnr, hnc⟩
      | some t =>
        rw [hdict] at heq
        have hds : ∀ d ∈ t.deps, d ∈ univers ts :=
          fun d hd => mem_univers_of_dep (taches_dict_mem hdict).1 hd
        cases hF : t.deps.foldl (dfs_acc ts fuel) (false, c :: V, c :: R) with
        | mk b pr =>
          cases b with
          | true =>
            rw [hF] at heq
            exact absurd heq (by simp)
          | false =>
            obtain ⟨V₂, R₂⟩ := pr
            rw [hF] at heq
            have hV' : V₂ = V' ∧ R₂.erase c = R' := by
              refine ⟨congrArg (fun p => p.2.1) heq, congrArg (fun p => p.2.2) heq⟩
            obtain ⟨hV', hR'⟩ := hV'
            obtain ⟨hR₂, hgrow, hinv₂, hdall⟩ :=
              ihfold t.deps (c :: V) (c :: R) hds hRV' hinv' hcard' V₂ R₂ hF
            subst hV'
            have hR'R : R' = R := by
              rw [← hR', hR₂, List.erase_cons_head]
            have hstep_dep : ∀ d, Step ts c d → d ∈ t.deps := by
              intro d hstep
              obtain ⟨t', hdict', hd'⟩ := hstep
              rw [hdict] at hdict'
              cases hdict'
              exact hd'
            refine ⟨hR'R, ?_, ?_, ?_⟩
            · intro x hx
              exact hgrow x (List.mem_cons_of_mem _ hx)
            · exact hgrow c (List.mem_cons_self _ _)
            · intro v hv hvr
              by_cases hvc : v = c
              · subst hvc
                refine ⟨?_, ?_, ?_⟩
                · intro d hstep
                  exact (hdall d (hstep_dep d hstep)).1
                · intro r hr hreach
                  rcases Relation.ReflTransGen.cases_head hreach with rfl | ⟨d, hstep, hdr⟩
                  · exact hcV (hRV _ hr)
                  · have hd := hdall d (hstep_dep d hstep)
                    exact (hinv₂ d hd.1 hd.2).2.1 r (List.mem_cons_of_mem _ hr) hdr
                · intro hcyc
                  obtain ⟨d, hstep, hdc⟩ := Relation.TransGen.head'_iff.mp hcyc
                  have hd := hdall d (hstep_dep d hstep)
                  exact (hinv₂ d hd.1 hd.2).2.1 v (List.mem_cons_self _ _) hdc
              · have hvCR : v ∉ c :: R := by
                  intro hm
                  rcases List.mem_cons.mp hm with he | hm'
                  · exact hvc he
                  · exact hvr hm'
                obtain ⟨hcl, hnr, hnc⟩ := hinv₂ v hv hvCR
                exact ⟨hcl, fun r hr => hnr r (List.mem_cons_of_mem _ hr), hnc⟩
    have hfold : DfsFold ts (fuel+1) := by
      intro ds
      induction ds with
      | nil =>
        intro V R hds hRV hinv hcard V' R' heq
        simp only [List.foldl_nil] at heq
        have hV : V = V' := congrArg (fun p => p.2.1) heq
        have hR : R = R' := congrArg (fun p => p.2.2) heq
        subst hV
        subst hR
        exact ⟨rfl, fun x h => h, hinv, by simp⟩
      | cons d ds ihds =>
        intro V R hds hRV hinv hcard V' R' heq
        rw [List.foldl_cons] at heq
        by_cases hdV : d ∈ V
        · by_cases hdR : d ∈ R
          · have hacc : dfs_acc ts (fuel+1) (false, V, R) d = (true, V, R) := by
              simp [dfs_acc, hdV, hdR]
            rw [hacc, dfs_acc_true] at heq
            exact absurd heq (by simp)
          · have hacc : dfs_acc ts (fuel+1) (false, V, R) d = (false, V, R) := by
              simp [dfs_acc, hdV, hdR]
            rw [hacc] at heq
            obtain ⟨hR', hgrow, hinv', hall⟩ :=
              ihds V R (fun x hx => hds x (List.mem_cons_of_mem _ hx)) hRV hinv hcard V' R' heq
            refine ⟨hR', hgrow, hinv', ?_⟩
            intro x hx
            rcases List.mem_cons.mp hx with rfl | hx'
            · exact ⟨hgrow x hdV, hdR⟩
            · exact hall x hx'
        · have hacc : dfs_acc ts (fuel+1) (false, V, R) d = dfs ts (fuel+1) d V R := by
            simp [dfs_acc, hdV]
          rw [hacc] at heq
          cases hcall : dfs ts (fuel+1) d V R with
          | mk b pr =>
            cases b with
            | true =>
              rw [hcall] at heq
              rw [dfs_acc_true] at heq
              exact absurd heq (by simp)
            | false =>
              obtain ⟨V₂, R₂⟩ := pr
              rw [hcall] at heq
              obtain ⟨hR₂, hgrow₂, hdV₂, hinv₂⟩ :=
                hmain d V R hdV (hds d (List.mem_cons_self _ _)) hRV hinv hcard V₂ R₂ hcall
              rw [hR₂] at heq
              have hcard₂ : ((univers ts).toFinset \ V₂.toFinset).card < fuel + 1 := by
                have := card_sdiff_mono (U := (univers ts).toFinset) hgrow₂
                omega
              obtain ⟨hR', hgrow', hinv', hall'⟩ :=
                ihds V₂ R (fun x hx => hds x (List.mem_cons_of_mem _ hx))
                  (fun r hr => hgrow₂ r (hRV r hr)) hinv₂ hcard₂ V' R' heq
              refine ⟨hR', fun x hx => hgrow' x (hgrow₂ x hx), hinv', ?_⟩
              intro x hx
              rcases List.mem_cons.mp hx with rfl | hx'
              · exact ⟨hgrow' x hdV₂, fun hr => hdV (hRV x hr)⟩
              · exact hall' x hx'
    exact ⟨hmain, hfold⟩

theorem has_circular_loop_spec (ts : List Tache) :
    ∀ (rest : List Tache), (∀ u ∈ rest, u ∈ ts) → ∀ (V : List String),
      DfsInv ts V [] → has_circular_loop ts rest V [] = false →
      ∃ V', DfsInv ts V' [] ∧ (∀ x ∈ V, x ∈ V') ∧ ∀ t ∈ rest, t.code ∈ V' := by
  intro rest
  induction rest with
  | nil =>
    intro _ V hinv _
    exact ⟨V, hinv, fun x h => h, by simp⟩
  | cons t rest ih =>
    intro hsub V hinv hloop
    have htts : t ∈ ts := hsub t (List.mem_cons_self _ _)
    have hsub' : ∀ u ∈ rest, u ∈ ts := fun u hu => hsub u (List.mem_cons_of_mem _ hu)
    by_cases hc : t.code ∈ V
    · have hred : has_circular_loop ts (t :: rest) V [] = has_circular_loop ts rest V [] := by
        simp [has_circular_loop, hc]
      rw [hred] at hloop
      obtain ⟨V', h1, h2, h3⟩ := ih hsub' V hinv hloop
      refine ⟨V', h1, h2, ?_⟩
      intro u hu
      rcases List.mem_cons.mp hu with rfl | hu'
      · exact h2 _ hc
      · exact h3 u hu'
    · cases hcall : dfs ts (fuel_dfs ts) t.code V [] with
      | mk b pr =>
        cases b with
        | true =>
          have hred : has_circular_loop ts (t :: rest) V [] = true := by
            simp [has_circular_loop, hc, hcall]
          rw [hred] at hloop
          cases hloop
        | false =>
          obtain ⟨V₁, R₁⟩ := pr
          have hcard : ((univers ts).toFinset \ V.toFinset).card < fuel_dfs ts := by
            have h1 := Finset.card_le_card
              (Finset.sdiff_subset (s := (univers ts).toFinset) (t := V.toFinset))
            have h2 := univers_card_lt_fuel ts
            omega
          obtain ⟨hR₁, hgrow, hmemc, hinv₁⟩ := (dfs_spec ts (fuel_dfs ts)).1 t.code V []
            hc (mem_univers_of_task htts) (by simp) hinv hcard V₁ R₁ hcall
          have hred : has_circular_loop ts (t :: rest) V []
              = has_circular_loop ts rest V₁ R₁ := by
            simp [has_circular_loop, hc, hcall]
          rw [hred, hR₁] at hloop
          obtain ⟨V', h1, h2, h3⟩ := ih hsub' V₁ hinv₁ hloop
          refine ⟨V', h1, fun x hx => h2 _ (hgrow x hx), ?_⟩
          intro u hu
          rcases List.mem_cons.mp hu with rfl | hu'
          · exact h2 _ hmemc
          · exact h3 u hu'

theorem step_source_mem {ts : List Tache} {a b : String} (h : Step ts a b) :
    ∃ t, t ∈ ts ∧ t.code = a ∧ b ∈ t.deps := by
  obtain ⟨t, hdict, hb⟩ := h
  exact ⟨t, (taches_dict_mem hdict).1, (taches_dict_mem hdict).2, hb⟩

theorem hasCycle_detected {ts : List Tache} (h : HasCycle ts) :
    has_circular_dependency ts = true := by
  by_contra hb
  have hf : has_circular_dependency ts = false := by
    cases hx : has_circular_dependency ts
    · rfl
    · exact absurd hx hb
  have hinv0 : DfsInv ts [] [] := by
    intro v hv _
    exact absurd hv (List.not_mem_nil v)
  obtain ⟨V', hinv, _, hall⟩ :=
    has_circular_loop_spec ts ts (fun u hu => hu) [] hinv0 hf
  obtain ⟨c, hcyc⟩ := h
  obtain ⟨d, hstepd, _⟩ := Relation.TransGen.head'_iff.mp hcyc
  obtain ⟨t, htmem, htcode, _⟩ := step_source_mem hstepd
  have hcV : c ∈ V' := htcode ▸ hall t htmem
  exact (hinv c hcV (List.not_mem_nil c)).2.2 hcyc

theorem not_hasCycle_of_detector_false {ts : List Tache}
    (h : has_circular_dependency ts = false) : ¬ HasCycle ts := by
  intro hc
  rw [hasCycle_detected hc] at h
  cases h

theorem forward_untouched (ts : List Tache) (l : List String) (st : Dates) (c : String)
    (h : c ∉ l) :
    (l.foldl (forward_step ts) st).debut c = st.debut c ∧
      (l.foldl (forward_step ts) st).fin c = st.fin c := by
  induction l generalizing st with
  | nil => exact ⟨rfl, rfl⟩
  | cons a l ih =>
    have hca : c ≠ a := fun he => h (he ▸ List.mem_cons_self _ _)
    have hcl : c ∉ l := fun hm => h (List.mem_cons_of_mem _ hm)
    rw [List.foldl_cons]
    obtain ⟨ih1, ih2⟩ := ih (forward_step ts st a) hcl
    rw [ih1, ih2]
    constructor
    · cases hdict : taches_dict ts a <;>
        simp [forward_step, hdict, update_other _ _ _ hca]
    · cases hdict : taches_dict ts a <;>
        simp [forward_step, hdict, update_other _ _ _ hca]

theorem isEmpty_false_of_mem {ts : List Tache} {t : Tache} (ht : t ∈ ts) :
    ts.isEmpty = false := by
  cases ts with
  | nil => exact absurd ht (List.not_mem_nil t)
  | cons a l => rfl

/-- C3 (amended): when the dependency graph has a cycle, `calculer` detects
it before any date is computed: it returns the boolean `False` (the internal
`ValueError` is caught by the blanket `except` handler and never reaches the
caller as a typed error) and writes no derived field for any task. -/
theorem calculer_cycle_echec {ts : List Tache} (h : HasCycle ts) :
    calculer ts = (false, []) := by
  obtain ⟨c, hcyc⟩ := h
  obtain ⟨d, hstepd, _⟩ := Relation.TransGen.head'_iff.mp hcyc
  obtain ⟨t, htmem, _, _⟩ := step_source_mem hstepd
  have hie : ts.isEmpty = false := isEmpty_false_of_mem htmem
  have hdet : has_circular_dependency ts = true := hasCycle_detected ⟨c, hcyc⟩
  simp [calculer, calculer_inner, hdet, hie]

/-- Witness for C3 at the concrete two-task cycle. -/
theorem calculer_cycle_echec_temoin :
    HasCycle exemple_cycle ∧ calculer exemple_cycle = (false, []) := by
  have hstep1 : Step exemple_cycle "A" "B" :=
    ⟨⟨"A", 1, ["B"]⟩, by decide, by decide⟩
  have hstep2 : Step exemple_cycle "B" "A" :=
    ⟨⟨"B", 1, ["A"]⟩, by decide, by decide⟩
  have hc : HasCycle exemple_cycle :=
    ⟨"A", Relation.TransGen.head hstep1 (Relation.TransGen.single hstep2)⟩
  exact ⟨hc, calculer_cycle_echec hc⟩

/-- C9 (amended): for a collection satisfying the data-model invariants whose
dependency graph is acyclic, Kahn's algorithm emits every task exactly once.
No secondary emitted-count check exists in the implementation (see the
counterexample): a shortfall is silently ignored, not treated as a cycle. -/
theorem tri_topologique_complet {ts : List Tache} (h1 : CodesNodup ts)
    (h2 : DepsNodup ts) (h3 : Resolved ts) (h4 : ¬ HasCycle ts) :
    ∀ t ∈ ts, (tri_topologique ts).count t.code = 1 := by
  intro t ht
  exact List.count_eq_one_of_mem (tri_nodup h1 h2) (tri_complete h1 h2 h3 h4 t ht)

/-- Witness for C9 at the three-task chain. -/
theorem tri_topologique_complet_temoin :
    (CodesNodup exemple_chaine ∧ DepsNodup exemple_chaine ∧ Resolved exemple_chaine ∧
      ¬ HasCycle exemple_chaine) ∧
      (tri_topologique exemple_chaine).count "B" = 1 := by
  have h1 : CodesNodup exemple_chaine := by unfold CodesNodup; decide
  have h2 : DepsNodup exemple_chaine := by unfold DepsNodup; decide
  have h3 : Resolved exemple_chaine := by unfold Resolved; decide
  have h4 : ¬ HasCycle exemple_chaine := not_hasCycle_of_detector_false (by decide)
  exact ⟨⟨h1, h2, h3, h4⟩,
    tri_topologique_complet h1 h2 h3 h4 ⟨"B", 2, ["A"]⟩ (by decide)⟩

/-- C7 (amended): a dependency code that resolves to no task of the
collection causes no failure and no error: the dependent task is simply
never emitted by the topological sort, so its earliest dates keep their
initialised value `0`, and `calculer` succeeds whenever the cycle detector
passes — no `UnresolvedDependencyError` exists in the code. -/
theorem dependance_non_resolue_ignoree {ts : List Tache} (h1 : CodesNodup ts)
    (h2 : DepsNodup ts) {t : Tache} (ht : t ∈ ts) {d : String} (hd : d ∈ t.deps)
    (hno : ∀ u ∈ ts, u.code ≠ d) :
    t.code ∉ tri_topologique ts ∧
      (calculer ts).1 = !(has_circular_dependency ts) ∧
      (calculer_dates_tot ts).debut t.code = 0 ∧
      (calculer_dates_tot ts).fin t.code = 0 := by
  have hnotem := unresolved_not_emitted h1 h2 ht hd hno
  have hie : ts.isEmpty = false := isEmpty_false_of_mem ht
  obtain ⟨hdeb, hfin⟩ := forward_untouched ts (tri_topologique ts)
    { debut := fun _ => 0, fin := fun _ => 0 } t.code hnotem
  refine ⟨hnotem, ?_, hdeb, hfin⟩
  cases hdet : has_circular_dependency ts <;>
    simp [calculer, calculer_inner, hie, hdet]

/-- Witness for C7 at the concrete one-task collection with the unresolved
dependency code `"X"`. -/
theorem dependance_non_resolue_ignoree_temoin :
    (CodesNodup exemple_non_resolu_echec ∧ DepsNodup exemple_non_resolu_echec ∧
      (⟨"T", 7, ["X"]⟩ : Tache) ∈ exemple_non_resolu_echec ∧
      "X" ∈ (⟨"T", 7, ["X"]⟩ : Tache).deps ∧
      (∀ u ∈ exemple_non_resolu_echec, u.code ≠ "X")) ∧
    ("T" ∉ tri_topologique exemple_non_resolu_echec ∧
      (calculer exemple_non_resolu_echec).1
        = !(has_circular_dependency exemple_non_resolu_echec) ∧
      (calculer_dates_tot exemple_non_resolu_echec).debut "T" = 0 ∧
      (calculer_dates_tot exemple_non_resolu_echec).fin "T" = 0) := by
  have h1 : CodesNodup exemple_non_resolu_echec := by unfold CodesNodup; decide
  have h2 : DepsNodup exemple_non_resolu_echec := by unfold DepsNodup; decide
  have ht : (⟨"T", 7, ["X"]⟩ : Tache) ∈ exemple_non_resolu_echec := by decide
  have hd : "X" ∈ (⟨"T", 7, ["X"]⟩ : Tache).deps := by decide
  have hno : ∀ u ∈ exemple_non_resolu_echec, u.code ≠ "X" := by decide
  exact ⟨⟨h1, h2, ht, hd, hno⟩, dependance_non_resolue_ignoree h1 h2 ht hd hno⟩

/-! #### Final values of the forward pass -/

theorem codes_split {ts : List Tache} (h1 : CodesNodup ts) {t : Tache} {p₁ p₂ : List Tache}
    (hsplit : ts = p₁ ++ t :: p₂) :
    (∀ u ∈ p₁, u.code ≠ t.code) ∧ (∀ u ∈ p₂, u.code ≠ t.code) := by
  subst hsplit
  unfold CodesNodup at h1
  rw [List.map_append, List.map_cons] at h1
  rw [List.nodup_append] at h1
  obtain ⟨hn1, hn2, hdisj⟩ := h1
  constructor
  · intro u hu he
    exact hdisj (List.mem_map_of_mem _ hu) (he ▸ List.mem_cons_self _ _)
  · intro u hu he
    exact (List.nodup_cons.mp hn2).1 (he ▸ List.mem_map_of_mem _ hu)

theorem forward_final {ts : List Tache} (h1 : CodesNodup ts) (h2 : DepsNodup ts)
    {t : Tache} (ht : t ∈ ts) (hmem : t.code ∈ tri_topologique ts) :
    (calculer_dates_tot ts).fin t.code = (calculer_dates_tot ts).debut t.code + t.duree ∧
    (t.deps = [] → (calculer_dates_tot ts).debut t.code = 0) ∧
    (∀ d0 ds, t.deps = d0 :: ds →
      (calculer_dates_tot ts).debut t.code
        = maxList ((calculer_dates_tot ts).fin d0) (ds.map (calculer_dates_tot ts).fin)) := by
  obtain ⟨l₁, l₂, hsplit⟩ := List.append_of_mem hmem
  have hnd : (tri_topologique ts).Nodup := tri_nodup h1 h2
  have hdict := taches_dict_self h1 ht
  have hnd2 : (l₁ ++ t.code :: l₂).Nodup := hsplit ▸ hnd
  rw [List.nodup_append] at hnd2
  obtain ⟨hnl₁, hnl₂, hdisj⟩ := hnd2
  have hcl₂ : t.code ∉ l₂ := (List.nodup_cons.mp hnl₂).1
  have hdeps_l₁ : ∀ d ∈ t.deps, d ∈ l₁ := by
    intro d hd
    exact tri_topo_prefix h1 h2 l₁ t.code l₂ hsplit d (by rw [deps_of_task h1 ht]; exact hd)
  have hdeps_stable : ∀ d ∈ t.deps, d ∉ t.code :: l₂ := by
    intro d hd
    exact hdisj (hdeps_l₁ d hd)
  set init : Dates := { debut := fun _ => 0, fin := fun _ => 0 } with hinit
  set s₁ : Dates := l₁.foldl (forward_step ts) init with hs₁
  have htot : calculer_dates_tot ts
      = (t.code :: l₂).foldl (forward_step ts) s₁ := by
    rw [calculer_dates_tot, hsplit, List.foldl_append]
  have hstep : (t.code :: l₂).foldl (forward_step ts) s₁
      = l₂.foldl (forward_step ts) (forward_step ts s₁ t.code) := by
    rw [List.foldl_cons]
  set D : Int := (match t.deps with
    | [] => 0
    | d0 :: ds => maxList (s₁.fin d0) (ds.map s₁.fin)) with hD
  have hfs : forward_step ts s₁ t.code
      = { debut := update s₁.debut t.code D,
          fin := update s₁.fin t.code (D + t.duree) } := by
    simp only [forward_step, hdict]
  obtain ⟨hu1, hu2⟩ := forward_untouched ts l₂ (forward_step ts s₁ t.code) t.code hcl₂
  have hdebut : (calculer_dates_tot ts).debut t.code = D := by
    rw [htot, hstep, hu1, hfs]
    exact update_same _ _ _
  have hfin : (calculer_dates_tot ts).fin t.code = D + t.duree := by
    rw [htot, hstep, hu2, hfs]
    exact update_same _ _ _
  have hstable : ∀ d ∈ t.deps, (calculer_dates_tot ts).fin d = s₁.fin d := by
    intro d hd
    have hnm : d ∉ t.code :: l₂ := hdeps_stable d hd
    rw [htot]
    exact (forward_untouched ts (t.code :: l₂) s₁ d hnm).2
  refine ⟨by rw [hdebut, hfin], ?_, ?_⟩
  · intro hnil
    rw [hdebut, hD, hnil]
  · intro d0 ds hcons
    rw [hdebut, hD, hcons]
    have hd0 : (calculer_dates_tot ts).fin d0 = s₁.fin d0 :=
      hstable d0 (by rw [hcons]; exact List.mem_cons_self _ _)
    have hds : ds.map (calculer_dates_tot ts).fin = ds.map s₁.fin := by
      refine List.map_congr_left ?_
      intro d hd
      exact hstable d (by rw [hcons]; exact List.mem_cons_of_mem _ hd)
    rw [hd0, hds]

/-! #### Final values of the backward pass -/

theorem backward_untouched (ts : List Tache) (l : List String) (st : Dates) (c : String)
    (h : c ∉ l) :
    (l.foldl (backward_step ts) st).debut c = st.debut c ∧
      (l.foldl (backward_step ts) st).fin c = st.fin c := by
  induction l generalizing st with
  | nil => exact ⟨rfl, rfl⟩
  | cons a l ih =>
    have hca : c ≠ a := fun he => h (he ▸ List.mem_cons_self _ _)
    have hcl : c ∉ l := fun hm => h (List.mem_cons_of_mem _ hm)
    rw [List.foldl_cons]
    obtain ⟨ih1, ih2⟩ := ih (backward_step ts st a) hcl
    rw [ih1, ih2]
    constructor
    · cases hdict : taches_dict ts a <;>
        simp [backward_step, hdict, update_other _ _ _ hca]
    · cases hdict : taches_dict ts a <;>
        simp [backward_step, hdict, update_other _ _ _ hca]

theorem backward_sinks_untouched (ts : List Tache) (tot : Dates) (l : List Tache)
    (st : Dates) {c : String} (h : ∀ u ∈ l, u.code ≠ c) :
    (l.foldl (backward_sinks_pas ts tot) st).debut c = st.debut c ∧
      (l.foldl (backward_sinks_pas ts tot) st).fin c = st.fin c := by
  induction l generalizing st with
  | nil => exact ⟨rfl, rfl⟩
  | cons a l ih =>
    rw [List.foldl_cons]
    obtain ⟨ih1, ih2⟩ := ih (backward_sinks_pas ts tot st a)
      (fun u hu => h u (List.mem_cons_of_mem _ hu))
    rw [ih1, ih2]
    have hca : c ≠ a.code := fun he => h a (List.mem_cons_self _ _) he.symm
    constructor
    · unfold backward_sinks_pas
      split <;> simp [update_other _ _ _ hca]
    · unfold backward_sinks_pas
      split <;> simp [update_other _ _ _ hca]

theorem backward_sinks_fold_value {ts : List Tache} (tot : Dates) {t : Tache}
    {p₁ p₂ : List Tache} (st : Dates)
    (hp₁ : ∀ u ∈ p₁, u.code ≠ t.code) (hp₂ : ∀ u ∈ p₂, u.code ≠ t.code) :
    ((successeurs ts t).isEmpty = true →
      ((p₁ ++ t :: p₂).foldl (backward_sinks_pas ts tot) st).fin t.code = tot.fin t.code ∧
      ((p₁ ++ t :: p₂).foldl (backward_sinks_pas ts tot) st).debut t.code
        = tot.fin t.code - t.duree) ∧
    ((successeurs ts t).isEmpty = false →
      ((p₁ ++ t :: p₂).foldl (backward_sinks_pas ts tot) st).fin t.code = st.fin t.code ∧
      ((p₁ ++ t :: p₂).foldl (backward_sinks_pas ts tot) st).debut t.code
        = st.debut t.code) := by
  rw [List.foldl_append, List.foldl_cons]
  obtain ⟨hq1, hq2⟩ := backward_sinks_untouched ts tot p₁ st hp₁
  obtain ⟨hr1, hr2⟩ := backward_sinks_untouched ts tot p₂
    (backward_sinks_pas ts tot (p₁.foldl (backward_sinks_pas ts tot) st) t) hp₂
  constructor
  · intro hsink
    have hpas : backward_sinks_pas ts tot (p₁.foldl (backward_sinks_pas ts tot) st) t
        = { debut := update (p₁.foldl (backward_sinks_pas ts tot) st).debut t.code
              (tot.fin t.code - t.duree),
            fin := update (p₁.foldl (backward_sinks_pas ts tot) st).fin t.code
              (tot.fin t.code) } := by
      unfold backward_sinks_pas
      rw [if_pos hsink]
    constructor
    · rw [hr2, hpas]
      exact update_same _ _ _
    · rw [hr1, hpas]
      exact update_same _ _ _
  · intro hnot
    have hpas : backward_sinks_pas ts tot (p₁.foldl (backward_sinks_pas ts tot) st) t
        = p₁.foldl (backward_sinks_pas ts tot) st := by
      unfold backward_sinks_pas
      rw [if_neg (by simp [hnot])]
    constructor
    · rw [hr2, hpas, hq2]
    · rw [hr1, hpas, hq1]

theorem backward_sinks_value {ts : List Tache} (h1 : CodesNodup ts) (tot : Dates)
    {t : Tache} (ht : t ∈ ts) (st : Dates) :
    ((successeurs ts t).isEmpty = true →
      (backward_sinks ts tot st).fin t.code = tot.fin t.code ∧
      (backward_sinks ts tot st).debut t.code = tot.fin t.code - t.duree) ∧
    ((successeurs ts t).isEmpty = false →
      (backward_sinks ts tot st).fin t.code = st.fin t.code ∧
      (backward_sinks ts tot st).debut t.code = st.debut t.code) := by
  obtain ⟨p₁, p₂, hsplit⟩ := List.append_of_mem ht
  obtain ⟨hp₁, hp₂⟩ := codes_split h1 hsplit
  have heq : backward_sinks ts tot st
      = (p₁ ++ t :: p₂).foldl (backward_sinks_pas ts tot) st := by
    rw [backward_sinks, ← hsplit]
  rw [heq]
  exact backward_sinks_fold_value tot st hp₁ hp₂

theorem precedes_tri_of_successeur {ts : List Tache} (h1 : CodesNodup ts)
    (h2 : DepsNodup ts) {t s : Tache} (hs : s ∈ successeurs ts t)
    (hsmem : s.code ∈ tri_topologique ts) :
    Precedes (tri_topologique ts) t.code s.code := by
  obtain ⟨m₁, m₂, hm⟩ := List.append_of_mem hsmem
  have hsm := mem_successeurs.mp hs
  have hin : t.code ∈ m₁ := tri_topo_prefix h1 h2 m₁ s.code m₂ hm t.code
    (by rw [deps_of_task h1 hsm.1]; exact hsm.2)
  exact ⟨m₁, s.code :: m₂, hm, hin, List.mem_cons_self _ _⟩

theorem backward_final {ts : List Tache} (h1 : CodesNodup ts) (h2 : DepsNodup ts)
    (tot : Dates) {t : Tache} (ht : t ∈ ts) (hmem : t.code ∈ tri_topologique ts)
    (hsuccmem : ∀ s ∈ successeurs ts t, s.code ∈ tri_topologique ts) :
    (calculer_dates_tard ts tot).debut t.code
        = (calculer_dates_tard ts tot).fin t.code - t.duree ∧
    (successeurs ts t = [] →
      (calculer_dates_tard ts tot).fin t.code = tot.fin t.code) ∧
    (∀ s0 ss, successeurs ts t = s0 :: ss →
      (calculer_dates_tard ts tot).fin t.code
        = minList ((calculer_dates_tard ts tot).debut s0.code)
            (ss.map (fun u => (calculer_dates_tard ts tot).debut u.code))) := by
  have hdict := taches_dict_self h1 ht
  have hmemr : t.code ∈ (tri_topologique ts).reverse := List.mem_reverse.mpr hmem
  have hndr : (tri_topologique ts).reverse.Nodup :=
    List.nodup_reverse.mpr (tri_nodup h1 h2)
  obtain ⟨r₁, r₂, hsplitr⟩ := List.append_of_mem hmemr
  have hndr2 : (r₁ ++ t.code :: r₂).Nodup := hsplitr ▸ hndr
  rw [List.nodup_append] at hndr2
  obtain ⟨hnr₁, hnr₂, hdisjr⟩ := hndr2
  have hcr₂ : t.code ∉ r₂ := (List.nodup_cons.mp hnr₂).1
  set p := date_fin_projet ts tot with hp
  set st0 : Dates := { debut := fun _ => p, fin := fun _ => p } with hst0
  set stS := backward_sinks ts tot st0 with hstS
  have htard : calculer_dates_tard ts tot
      = (tri_topologique ts).reverse.foldl (backward_step ts) stS := rfl
  set s₁ : Dates := r₁.foldl (backward_step ts) stS with hs₁
  have htard2 : calculer_dates_tard ts tot
      = r₂.foldl (backward_step ts) (backward_step ts s₁ t.code) := by
    rw [htard, hsplitr, List.foldl_append, List.foldl_cons]
  set F : Int := (match successeurs ts t with
    | [] => s₁.fin t.code
    | s0 :: ss => minList (s₁.debut s0.code) (ss.map (fun u => s₁.debut u.code))) with hF
  have hbs : backward_step ts s₁ t.code
      = { debut := update s₁.debut t.code (F - t.duree),
          fin := update s₁.fin t.code F } := by
    simp only [backward_step, hdict]
  obtain ⟨hu1, hu2⟩ := backward_untouched ts r₂ (backward_step ts s₁ t.code) t.code hcr₂
  have hdebut : (calculer_dates_tard ts tot).debut t.code = F - t.duree := by
    rw [htard2, hu1, hbs]
    exact update_same _ _ _
  have hfin : (calculer_dates_tard ts tot).fin t.code = F := by
    rw [htard2, hu2, hbs]
    exact update_same _ _ _
  have hstable : ∀ s ∈ successeurs ts t,
      (calculer_dates_tard ts tot).debut s.code = s₁.debut s.code := by
    intro s hs
    have hpre : Precedes ((tri_topologique ts).reverse) s.code t.code :=
      precedes_reverse (precedes_tri_of_successeur h1 h2 hs (hsuccmem s hs))
    rw [hsplitr] at hpre
    have hsr₁ : s.code ∈ r₁ := mem_prefix_of_precedes (hsplitr ▸ hndr) hpre
    have hnot : s.code ∉ r₂ := fun hm => hdisjr hsr₁ (List.mem_cons_of_mem _ hm)
    have hne : s.code ≠ t.code := fun he => hdisjr hsr₁ (he ▸ List.mem_cons_self _ _)
    rw [htard2]
    rw [(backward_untouched ts r₂ (backward_step ts s₁ t.code) s.code hnot).1, hbs]
    exact update_other _ _ _ hne
  refine ⟨by rw [hdebut, hfin], ?_, ?_⟩
  · intro hnil
    rw [hfin, hF, hnil]
    have hsink : (successeurs ts t).isEmpty = true := by rw [hnil]; rfl
    have hs₁fin : s₁.fin t.code = stS.fin t.code := by
      have hnr : t.code ∉ r₁ := fun hm => hdisjr hm (List.mem_cons_self _ _)
      exact (backward_untouched ts r₁ stS t.code hnr).2
    rw [hs₁fin]
    exact ((backward_sinks_value h1 tot ht st0).1 hsink).1
  · intro s0 ss hcons
    rw [hfin, hF, hcons]
    have hs0 : (calculer_dates_tard ts tot).debut s0.code = s₁.debut s0.code :=
      hstable s0 (by rw [hcons]; exact List.mem_cons_self _ _)
    have hss : ss.map (fun u => (calculer_dates_tard ts tot).debut u.code)
        = ss.map (fun u => s₁.debut u.code) := by
      refine List.map_congr_left ?_
      intro u hu
      exact hstable u (by rw [hcons]; exact List.mem_cons_of_mem _ hu)
    rw [hs0, hss]

theorem tard_ge_tot {ts : List Tache} (h1 : CodesNodup ts) (h2 : DepsNodup ts)
    (h3 : Resolved ts) (h4 : ¬ HasCycle ts) :
    ∀ t ∈ ts, (calculer_dates_tot ts).debut t.code
      ≤ (calculer_dates_tard ts (calculer_dates_tot ts)).debut t.code := by
  set tot := calculer_dates_tot ts with htotdef
  set tard := calculer_dates_tard ts tot with htarddef
  have hndr : (tri_topologique ts).reverse.Nodup :=
    List.nodup_reverse.mpr (tri_nodup h1 h2)
  have hmain : ∀ l₁ l₂ : List String, (tri_topologique ts).reverse = l₁ ++ l₂ →
      ∀ c ∈ l₁, tot.debut c ≤ tard.debut c := by
    intro l₁
    induction l₁ using List.reverseRecOn with
    | nil =>
      intro l₂ _ c hc
      cases hc
    | append_singleton l₁' c ih =>
      intro l₂ hsplit d hd
      have hsplit' : (tri_topologique ts).reverse = l₁' ++ c :: l₂ := by
        rw [hsplit, List.append_assoc]
        rfl
      rcases List.mem_append.mp hd with hd' | hd' 
      · exact ih (c :: l₂) hsplit' d hd'
      · rw [List.mem_singleton] at hd'
        subst hd'
        have hmemr : d ∈ (tri_topologique ts).reverse := by
          rw [hsplit']
          exact List.mem_append_right _ (List.mem_cons_self _ _)
        have hmemtri : d ∈ tri_topologique ts := List.mem_reverse.mp hmemr
        obtain ⟨u, hudict, humem, hucode⟩ := taskCodes_dict (tri_mem_taskCodes h1 h2 d hmemtri)
        have hmemtri' : u.code ∈ tri_topologique ts := by rw [hucode]; exact hmemtri
        have hsuccmem : ∀ s ∈ successeurs ts u, s.code ∈ tri_topologique ts :=
          fun s hs => tri_complete h1 h2 h3 h4 s (mem_successeurs.mp hs).1
        obtain ⟨hbf1, hbf2, hbf3⟩ := backward_final h1 h2 tot humem hmemtri' hsuccmem
        obtain ⟨hff1, hff2, hff3⟩ := forward_final h1 h2 humem hmemtri'
        rw [← htarddef] at hbf1 hbf2 hbf3
        rw [← htotdef] at hff1 hff2 hff3
        rw [← hucode]
        cases hsucc : successeurs ts u with
        | nil =>
          have he1 := hbf2 hsucc
          omega
        | cons s0 ss =>
          have he1 := hbf3 s0 ss hsucc
          obtain ⟨s, hsmem, he2⟩ := minList_map_mem (fun u => tard.debut u.code) s0 ss
          have hs_succ : s ∈ successeurs ts u := by rw [hsucc]; exact hsmem
          have hsmem2 := mem_successeurs.mp hs_succ
          have hstri : s.code ∈ tri_topologique ts := hsuccmem s hs_succ
          -- position of the successor in the processed prefix
          have hpre : Precedes ((tri_topologique ts).reverse) s.code u.code :=
            precedes_reverse (precedes_tri_of_successeur h1 h2 hs_succ hstri)
          rw [hucode] at hpre
          have hsl₁ : s.code ∈ l₁' :=
            mem_prefix_of_precedes (hsplit' ▸ hndr) (hsplit' ▸ hpre)
          have hIH : tot.debut s.code ≤ tard.debut s.code := ih (d :: l₂) hsplit' s.code hsl₁
          -- forward bound through the successor
          have hcode_dep : u.code ∈ s.deps := hsmem2.2
          obtain ⟨hffs1, hffs2, hffs3⟩ :=
            forward_final h1 h2 hsmem2.1 (tri_complete h1 h2 h3 h4 s hsmem2.1)
          rw [← htotdef] at hffs1 hffs2 hffs3
          have hbound : tot.fin u.code ≤ tot.debut s.code := by
            cases hdeps : s.deps with
            | nil =>
              rw [hdeps] at hcode_dep
              cases hcode_dep
            | cons d0 ds =>
              rw [hffs3 d0 ds hdeps]
              exact maxList_map_le tot.fin (by rw [← hdeps]; exact hcode_dep)
          omega
  intro t ht
  have hmemtri : t.code ∈ tri_topologique ts := tri_complete h1 h2 h3 h4 t ht
  have hmemr : t.code ∈ (tri_topologique ts).reverse := List.mem_reverse.mpr hmemtri
  exact hmain ((tri_topologique ts).reverse) [] (by rw [List.append_nil]) t.code hmemr

/-! #### The saved output of a successful run -/

theorem calculer_output {ts : List Tache} (hne : ts.isEmpty = false)
    (hdet : has_circular_dependency ts = false) :
    calculer ts = (true, sauvegarder_resultats ts (calculer_dates_tot ts)
      (calculer_dates_tard ts (calculer_dates_tot ts))) := by
  simp [calculer, calculer_inner, hne, hdet]

theorem calculer_success_detector {ts : List Tache} (hne : ts.isEmpty = false)
    (hsucc : (calculer ts).1 = true) : has_circular_dependency ts = false := by
  cases hdet : has_circular_dependency ts
  · rfl
  · exfalso
    have heq : calculer ts = (false, []) := by
      simp [calculer, calculer_inner, hne, hdet]
    rw [heq] at hsucc
    cases hsucc

theorem filter_map_comm {α β : Type} (f : α → β) (p : β → Bool) (l : List α) :
    (l.map f).filter p = (l.filter (fun a => p (f a))).map f := by
  induction l with
  | nil => rfl
  | cons a l ih =>
    simp only [List.map_cons, List.filter_cons]
    cases h : p (f a) <;> simp [h, ih]

theorem successeurs_res_save (ts : List Tache) (tot tard : Dates) (t : Tache) :
    successeurs_res (sauvegarder_resultats ts tot tard) (tache_calculee ts tot tard t)
      = (successeurs ts t).map (tache_calculee ts tot tard) := by
  rw [successeurs_res, sauvegarder_resultats, filter_map_comm]
  rfl

/-- C1: after a successful run of `calculer` on a collection satisfying the
data-model invariants, every saved task has `date_fin_tot = date_debut_tot +
duree`, tasks without dependencies start at `0`, and a task with
dependencies starts exactly at the maximum of its dependencies' earliest
finishes (an upper bound that is attained). -/
theorem dates_tot_correctes {ts : List Tache} (hwf : WellFormed ts)
    (hsucc : (calculer ts).1 = true) :
    ∀ r ∈ (calculer ts).2,
      r.date_fin_tot = r.date_debut_tot + r.duree ∧
      (r.deps = [] → r.date_debut_tot = 0) ∧
      (r.deps ≠ [] →
        (∀ d ∈ r.deps, ∃ rd ∈ (calculer ts).2,
          rd.code = d ∧ rd.date_fin_tot ≤ r.date_debut_tot) ∧
        (∃ d ∈ r.deps, ∃ rd ∈ (calculer ts).2,
          rd.code = d ∧ r.date_debut_tot = rd.date_fin_tot)) := by
  obtain ⟨h1, h2, h3⟩ := hwf
  intro r hr
  by_cases hemp : ts.isEmpty = true
  · rw [List.isEmpty_iff] at hemp
    subst hemp
    simp [calculer] at hr
  · have hne : ts.isEmpty = false := by
      cases h : ts.isEmpty
      · rfl
      · exact absurd h hemp
    have hdet := calculer_success_detector hne hsucc
    have hout := calculer_output hne hdet
    have hacyc := not_hasCycle_of_detector_false hdet
    have hr' : r ∈ sauvegarder_resultats ts (calculer_dates_tot ts)
        (calculer_dates_tard ts (calculer_dates_tot ts)) := by
      rw [hout] at hr
      exact hr
    obtain ⟨t, ht, rfl⟩ := List.mem_map.mp hr'
    have hmemtri := tri_complete h1 h2 h3 hacyc t ht
    obtain ⟨hf1, hf2, hf3⟩ := forward_final h1 h2 ht hmemtri
    refine ⟨hf1, hf2, ?_⟩
    intro hnonnil
    cases hdeps : t.deps with
    | nil => exact absurd hdeps hnonnil
    | cons d0 ds =>
      have hmax := hf3 d0 ds hdeps
      constructor
      · intro d hd
        obtain ⟨u, hu, hucode⟩ := h3 t ht d hd
        refine ⟨tache_calculee ts (calculer_dates_tot ts)
          (calculer_dates_tard ts (calculer_dates_tot ts)) u, ?_, hucode, ?_⟩
        · rw [hout]
          exact List.mem_map_of_mem _ hu
        · show (calculer_dates_tot ts).fin u.code ≤ (calculer_dates_tot ts).debut t.code
          rw [hmax, hucode]
          exact maxList_map_le (calculer_dates_tot ts).fin (by rw [← hdeps]; exact hd)
      · obtain ⟨d, hd, hdmax⟩ := maxList_map_mem (calculer_dates_tot ts).fin d0 ds
        obtain ⟨u, hu, hucode⟩ := h3 t ht d (by rw [hdeps]; exact hd)
        refine ⟨d, by show d ∈ t.deps; rw [hdeps]; exact hd,
          tache_calculee ts (calculer_dates_tot ts)
            (calculer_dates_tard ts (calculer_dates_tot ts)) u, ?_, hucode, ?_⟩
        · rw [hout]
          exact List.mem_map_of_mem _ hu
        · show (calculer_dates_tot ts).debut t.code = (calculer_dates_tot ts).fin u.code
          rw [hmax, hdmax, hucode]

/-- Witness for C1 at the three-task chain of spec §8. -/
theorem dates_tot_correctes_temoin :
    (WellFormed exemple_chaine ∧ (calculer exemple_chaine).1 = true) ∧
      (∀ r ∈ (calculer exemple_chaine).2,
        r.date_fin_tot = r.date_debut_tot + r.duree ∧
        (r.deps = [] → r.date_debut_tot = 0) ∧
        (r.deps ≠ [] →
          (∀ d ∈ r.deps, ∃ rd ∈ (calculer exemple_chaine).2,
            rd.code = d ∧ rd.date_fin_tot ≤ r.date_debut_tot) ∧
          (∃ d ∈ r.deps, ∃ rd ∈ (calculer exemple_chaine).2,
            rd.code = d ∧ r.date_debut_tot = rd.date_fin_tot))) := by
  have hwf : WellFormed exemple_chaine := by
    unfold WellFormed CodesNodup DepsNodup Resolved
    refine ⟨by decide, by decide, by decide⟩
  have hsucc : (calculer exemple_chaine).1 = true := by decide
  exact ⟨⟨hwf, hsucc⟩, dates_tot_correctes hwf hsucc⟩

/-- C2: after a successful run on a collection satisfying the data-model
invariants, every saved task has `date_debut_tard = date_fin_tard - duree`;
a task without successors keeps its own earliest finish as latest finish
(not the global project end); and a task with successors has latest finish
equal to the minimum of its successors' latest starts (a lower bound that is
attained). -/
theorem dates_tard_correctes {ts : List Tache} (hwf : WellFormed ts)
    (hsucc : (calculer ts).1 = true) :
    ∀ r ∈ (calculer ts).2,
      r.date_debut_tard = r.date_fin_tard - r.duree ∧
      (successeurs_res (calculer ts).2 r = [] → r.date_fin_tard = r.date_fin_tot) ∧
      (successeurs_res (calculer ts).2 r ≠ [] →
        (∀ s ∈ successeurs_res (calculer ts).2 r, r.date_fin_tard ≤ s.date_debut_tard) ∧
        (∃ s ∈ successeurs_res (calculer ts).2 r, r.date_fin_tard = s.date_debut_tard)) := by
  obtain ⟨h1, h2, h3⟩ := hwf
  intro r hr
  by_cases hemp : ts.isEmpty = true
  · rw [List.isEmpty_iff] at hemp
    subst hemp
    simp [calculer] at hr
  · have hne : ts.isEmpty = false := by
      cases h : ts.isEmpty
      · rfl
      · exact absurd h hemp
    have hdet := calculer_success_detector hne hsucc
    have hout := calculer_output hne hdet
    have hacyc := not_hasCycle_of_detector_false hdet
    have hr' : r ∈ sauvegarder_resultats ts (calculer_dates_tot ts)
        (calculer_dates_tard ts (calculer_dates_tot ts)) := by
      rw [hout] at hr
      exact hr
    obtain ⟨t, ht, rfl⟩ := List.mem_map.mp hr'
    rw [hout]
    show (tache_calculee ts (calculer_dates_tot ts)
        (calculer_dates_tard ts (calculer_dates_tot ts)) t).date_debut_tard
        = _ - _ ∧ _
    rw [successeurs_res_save]
    have hmemtri := tri_complete h1 h2 h3 hacyc t ht
    have hsuccmem : ∀ s ∈ successeurs ts t, s.code ∈ tri_topologique ts :=
      fun s hs => tri_complete h1 h2 h3 hacyc s (mem_successeurs.mp hs).1
    obtain ⟨hb1, hb2, hb3⟩ :=
      backward_final h1 h2 (calculer_dates_tot ts) ht hmemtri hsuccmem
    refine ⟨hb1, ?_, ?_⟩
    · intro hnil
      exact hb2 (List.map_eq_nil_iff.mp hnil)
    · intro hnonnil
      cases hsucc2 : successeurs ts t with
      | nil =>
        rw [hsucc2] at hnonnil
        exact absurd rfl hnonnil
      | cons s0 ss =>
        have hmin := hb3 s0 ss hsucc2
        constructor
        · intro s hs
          obtain ⟨w, hw, rfl⟩ := List.mem_map.mp hs
          show (calculer_dates_tard ts (calculer_dates_tot ts)).fin t.code
            ≤ (calculer_dates_tard ts (calculer_dates_tot ts)).debut w.code
          rw [hmin]
          exact minList_map_le
            (fun u => (calculer_dates_tard ts (calculer_dates_tot ts)).debut u.code) hw
        · obtain ⟨w, hw, hwmin⟩ := minList_map_mem
            (fun u => (calculer_dates_tard ts (calculer_dates_tot ts)).debut u.code) s0 ss
          refine ⟨tache_calculee ts (calculer_dates_tot ts)
            (calculer_dates_tard ts (calculer_dates_tot ts)) w,
            List.mem_map_of_mem _ hw, ?_⟩
          show (calculer_dates_tard ts (calculer_dates_tot ts)).fin t.code
            = (calculer_dates_tard ts (calculer_dates_tot ts)).debut w.code
          rw [hmin, hwmin]

/-- Witness for C2 at the three-task graph with an independent early sink. -/
theorem dates_tard_correctes_temoin :
    (WellFormed exemple_puits ∧ (calculer exemple_puits).1 = true) ∧
      (∀ r ∈ (calculer exemple_puits).2,
        r.date_debut_tard = r.date_fin_tard - r.duree ∧
        (successeurs_res (calculer exemple_puits).2 r = [] →
          r.date_fin_tard = r.date_fin_tot) ∧
        (successeurs_res (calculer exemple_puits).2 r ≠ [] →
          (∀ s ∈ successeurs_res (calculer exemple_puits).2 r,
            r.date_fin_tard ≤ s.date_debut_tard) ∧
          (∃ s ∈ successeurs_res (calculer exemple_puits).2 r,
            r.date_fin_tard = s.date_debut_tard))) := by
  have hwf : WellFormed exemple_puits := by
    unfold WellFormed CodesNodup DepsNodup Resolved
    refine ⟨by decide, by decide, by decide⟩
  have hsucc : (calculer exemple_puits).1 = true := by decide
  exact ⟨⟨hwf, hsucc⟩, dates_tard_correctes hwf hsucc⟩

/-- C4 (amended): every saved task has `marge_totale = date_debut_tard -
date_debut_tot`, and on collections satisfying the data-model invariants a
successful run always yields `marge_totale ≥ 0` (no consistency check exists
in the code: the counterexample shows a negative value silently stored when
a dependency does not resolve). -/
theorem marge_totale_correcte {ts : List Tache} (hwf : WellFormed ts)
    (hsucc : (calculer ts).1 = true) :
    ∀ r ∈ (calculer ts).2,
      r.marge_totale = r.date_debut_tard - r.date_debut_tot ∧ 0 ≤ r.marge_totale := by
  obtain ⟨h1, h2, h3⟩ := hwf
  intro r hr
  by_cases hemp : ts.isEmpty = true
  · rw [List.isEmpty_iff] at hemp
    subst hemp
    simp [calculer] at hr
  · have hne : ts.isEmpty = false := by
      cases h : ts.isEmpty
      · rfl
      · exact absurd h hemp
    have hdet := calculer_success_detector hne hsucc
    have hout := calculer_output hne hdet
    have hacyc := not_hasCycle_of_detector_false hdet
    have hr' : r ∈ sauvegarder_resultats ts (calculer_dates_tot ts)
        (calculer_dates_tard ts (calculer_dates_tot ts)) := by
      rw [hout] at hr
      exact hr
    obtain ⟨t, ht, rfl⟩ := List.mem_map.mp hr'
    refine ⟨rfl, ?_⟩
    have hge := tard_ge_tot h1 h2 h3 hacyc t ht
    show (0 : Int) ≤ (calculer_dates_tard ts (calculer_dates_tot ts)).debut t.code
      - (calculer_dates_tot ts).debut t.code
    omega

/-- Witness for C4 at the two-parallel-chains graph of spec §8. -/
theorem marge_totale_correcte_temoin :
    (WellFormed exemple_paralleles ∧ (calculer exemple_paralleles).1 = true) ∧
      (∀ r ∈ (calculer exemple_paralleles).2,
        r.marge_totale = r.date_debut_tard - r.date_debut_tot ∧ 0 ≤ r.marge_totale) := by
  have hwf : WellFormed exemple_paralleles := by
    unfold WellFormed CodesNodup DepsNodup Resolved
    refine ⟨by decide, by decide, by decide⟩
  have hsucc : (calculer exemple_paralleles).1 = true := by decide
  exact ⟨⟨hwf, hsucc⟩, marge_totale_correcte hwf hsucc⟩

/-- C5: after any successful run, a saved task with successors has
`marge_libre` equal to the minimum of its successors' earliest starts minus
its own earliest finish (a lower bound that is attained), and a task without
successors has `marge_libre = marge_totale`. -/
theorem marge_libre_correcte {ts : List Tache} (hsucc : (calculer ts).1 = true) :
    ∀ r ∈ (calculer ts).2,
      (successeurs_res (calculer ts).2 r = [] → r.marge_libre = r.marge_totale) ∧
      (successeurs_res (calculer ts).2 r ≠ [] →
        (∀ s ∈ successeurs_res (calculer ts).2 r,
          r.marge_libre ≤ s.date_debut_tot - r.date_fin_tot) ∧
        (∃ s ∈ successeurs_res (calculer ts).2 r,
          r.marge_libre = s.date_debut_tot - r.date_fin_tot)) := by
  intro r hr
  by_cases hemp : ts.isEmpty = true
  · rw [List.isEmpty_iff] at hemp
    subst hemp
    simp [calculer] at hr
  · have hne : ts.isEmpty = false := by
      cases h : ts.isEmpty
      · rfl
      · exact absurd h hemp
    have hdet := calculer_success_detector hne hsucc
    have hout := calculer_output hne hdet
    have hr' : r ∈ sauvegarder_resultats ts (calculer_dates_tot ts)
        (calculer_dates_tard ts (calculer_dates_tot ts)) := by
      rw [hout] at hr
      exact hr
    obtain ⟨t, ht, rfl⟩ := List.mem_map.mp hr'
    rw [hout, successeurs_res_save]
    constructor
    · intro hnil
      have hsn : successeurs ts t = [] := List.map_eq_nil_iff.mp hnil
      show calculer_marge_libre ts (calculer_dates_tot ts)
          (calculer_dates_tard ts (calculer_dates_tot ts)) t
        = calculer_marge_totale (calculer_dates_tot ts)
            (calculer_dates_tard ts (calculer_dates_tot ts)) t
      simp only [calculer_marge_libre, hsn]
    · intro hnonnil
      cases hsucc2 : successeurs ts t with
      | nil =>
        rw [hsucc2] at hnonnil
        exact absurd rfl hnonnil
      | cons s0 ss =>
        have hml : calculer_marge_libre ts (calculer_dates_tot ts)
            (calculer_dates_tard ts (calculer_dates_tot ts)) t
            = minList ((calculer_dates_tot ts).debut s0.code)
                (ss.map (fun u => (calculer_dates_tot ts).debut u.code))
              - (calculer_dates_tot ts).fin t.code := by
          simp only [calculer_marge_libre, hsucc2]
        constructor
        · intro s hs
          obtain ⟨w, hw, rfl⟩ := List.mem_map.mp hs
          show calculer_marge_libre ts (calculer_dates_tot ts)
              (calculer_dates_tard ts (calculer_dates_tot ts)) t
            ≤ (calculer_dates_tot ts).debut w.code - (calculer_dates_tot ts).fin t.code
          rw [hml]
          have hle := minList_map_le (fun u => (calculer_dates_tot ts).debut u.code) hw
          exact sub_le_sub_right hle _
        · obtain ⟨w, hw, hwmin⟩ := minList_map_mem
            (fun u => (calculer_dates_tot ts).debut u.code) s0 ss
          refine ⟨tache_calculee ts (calculer_dates_tot ts)
            (calculer_dates_tard ts (calculer_dates_tot ts)) w,
            List.mem_map_of_mem _ hw, ?_⟩
          show calculer_marge_libre ts (calculer_dates_tot ts)
              (calculer_dates_tard ts (calculer_dates_tot ts)) t
            = (calculer_dates_tot ts).debut w.code - (calculer_dates_tot ts).fin t.code
          rw [hml, hwmin]

/-- Witness for C5 at the two-parallel-chains graph of spec §8. -/
theorem marge_libre_correcte_temoin :
    ((calculer exemple_paralleles).1 = true) ∧
      (∀ r ∈ (calculer exemple_paralleles).2,
        (successeurs_res (calculer exemple_paralleles).2 r = [] →
          r.marge_libre = r.marge_totale) ∧
        (successeurs_res (calculer exemple_paralleles).2 r ≠ [] →
          (∀ s ∈ successeurs_res (calculer exemple_paralleles).2 r,
            r.marge_libre ≤ s.date_debut_tot - r.date_fin_tot) ∧
          (∃ s ∈ successeurs_res (calculer exemple_paralleles).2 r,
            r.marge_libre = s.date_debut_tot - r.date_fin_tot))) := by
  have hsucc : (calculer exemple_paralleles).1 = true := by decide
  exact ⟨hsucc, marge_libre_correcte hsucc⟩

/-- C6: a saved task is flagged critical exactly when its total slack is
zero; after a successful run on a nonempty collection satisfying the
data-model invariants at least one task is critical; and
`get_chemin_critique` returns exactly the critical tasks, ordered by
earliest start. -/
theorem chemin_critique_correct {ts : List Tache} (hwf : WellFormed ts)
    (hsucc : (calculer ts).1 = true) (hne : ts ≠ []) :
    (∀ r ∈ (calculer ts).2, (est_critique r = true ↔ r.marge_totale = 0)) ∧
    (∃ r ∈ (calculer ts).2, est_critique r = true) ∧
    (get_chemin_critique (calculer ts).2).Perm
      ((calculer ts).2.filter (fun r => r.marge_totale == 0)) ∧
    (get_chemin_critique (calculer ts).2).Pairwise
      (fun a b => a.date_debut_tot ≤ b.date_debut_tot) := by
  obtain ⟨h1, h2, h3⟩ := hwf
  have hie : ts.isEmpty = false := by
    cases ts with
    | nil => exact absurd rfl hne
    | cons a l => rfl
  have hdet := calculer_success_detector hie hsucc
  have hout := calculer_output hie hdet
  have hacyc := not_hasCycle_of_detector_false hdet
  refine ⟨?_, ?_, ?_, ?_⟩
  · intro r _
    simp [est_critique]
  · have htrine : tri_topologique ts ≠ [] := by
      obtain ⟨t0, ht0⟩ := List.exists_mem_of_ne_nil ts hne
      have hmem := tri_complete h1 h2 h3 hacyc t0 ht0
      intro he
      rw [he] at hmem
      cases hmem
    have hcmem : (tri_topologique ts).getLast htrine ∈ tri_topologique ts :=
      List.getLast_mem htrine
    obtain ⟨u, hudict, humem, hucode⟩ :=
      taskCodes_dict (tri_mem_taskCodes h1 h2 _ hcmem)
    have hlast : tri_topologique ts
        = (tri_topologique ts).dropLast ++ [(tri_topologique ts).getLast htrine] :=
      (List.dropLast_append_getLast htrine).symm
    have hcnotin : (tri_topologique ts).getLast htrine ∉ (tri_topologique ts).dropLast := by
      have hnd := tri_nodup h1 h2
      rw [hlast, List.nodup_append] at hnd
      intro hm
      exact hnd.2.2 hm (List.mem_singleton_self _)
    have hsink : successeurs ts u = [] := by
      cases hsucc2 : successeurs ts u with
      | nil => rfl
      | cons s0 ss =>
        exfalso
        have hs0 : s0 ∈ successeurs ts u := by
          rw [hsucc2]
          exact List.mem_cons_self _ _
        have hs0m := mem_successeurs.mp hs0
        have hs0tri : s0.code ∈ tri_topologique ts :=
          tri_complete h1 h2 h3 hacyc s0 hs0m.1
        obtain ⟨m₁, m₂, hm⟩ := List.append_of_mem hs0tri
        have hin : u.code ∈ m₁ := tri_topo_prefix h1 h2 m₁ s0.code m₂ hm u.code
          (by rw [deps_of_task h1 hs0m.1]; exact hs0m.2)
        rcases List.eq_nil_or_concat m₂ with rfl | ⟨q, z, rfl⟩
        · have he : (tri_topologique ts).dropLast
              ++ [(tri_topologique ts).getLast htrine] = m₁ ++ [s0.code] := by
            rw [← hlast, hm]
          obtain ⟨he1, _⟩ := List.append_inj' he rfl
          rw [hucode] at hin
          rw [← he1] at hin
          exact hcnotin hin
        · have he : (tri_topologique ts).dropLast
              ++ [(tri_topologique ts).getLast htrine]
              = (m₁ ++ s0.code :: q) ++ [z] := by
            rw [← hlast, hm]
            simp [List.append_assoc]
          obtain ⟨he1, _⟩ := List.append_inj' he rfl
          rw [hucode] at hin
          refine hcnotin ?_
          rw [he1]
          exact List.mem_append_left _ hin
    have hmemtri' : u.code ∈ tri_topologique ts := by
      rw [hucode]
      exact hcmem
    have hsuccmem : ∀ s ∈ successeurs ts u, s.code ∈ tri_topologique ts := by
      rw [hsink]
      intro s hs
      cases hs
    obtain ⟨hb1, hb2, _⟩ :=
      backward_final h1 h2 (calculer_dates_tot ts) humem hmemtri' hsuccmem
    obtain ⟨hf1, _, _⟩ := forward_final h1 h2 humem hmemtri'
    refine ⟨tache_calculee ts (calculer_dates_tot ts)
      (calculer_dates_tard ts (calculer_dates_tot ts)) u,
      by rw [hout]; exact List.mem_map_of_mem _ humem, ?_⟩
    have he1 := hb2 hsink
    simp only [est_critique, beq_iff_eq]
    show calculer_marge_totale (calculer_dates_tot ts)
      (calculer_dates_tard ts (calculer_dates_tot ts)) u = 0
    show (calculer_dates_tard ts (calculer_dates_tot ts)).debut u.code
      - (calculer_dates_tot ts).debut u.code = 0
    omega
  · exact List.perm_insertionSort _ _
  · haveI hto : IsTotal TacheCalculee (fun a b => a.date_debut_tot ≤ b.date_debut_tot) :=
      ⟨fun a b => le_total _ _⟩
    haveI htr : IsTrans TacheCalculee (fun a b => a.date_debut_tot ≤ b.date_debut_tot) :=
      ⟨fun _ _ _ hab hbc => le_trans hab hbc⟩
    exact List.sorted_insertionSort _ _

/-- Witness for C6 at the two-parallel-chains graph of spec §8. -/
theorem chemin_critique_correct_temoin :
    (WellFormed exemple_paralleles ∧ (calculer exemple_paralleles).1 = true ∧
      exemple_paralleles ≠ []) ∧
      ((∀ r ∈ (calculer exemple_paralleles).2,
        (est_critique r = true ↔ r.marge_totale = 0)) ∧
      (∃ r ∈ (calculer exemple_paralleles).2, est_critique r = true) ∧
      (get_chemin_critique (calculer exemple_paralleles).2).Perm
        ((calculer exemple_paralleles).2.filter (fun r => r.marge_totale == 0)) ∧
      (get_chemin_critique (calculer exemple_paralleles).2).Pairwise
        (fun a b => a.date_debut_tot ≤ b.date_debut_tot)) := by
  have hwf : WellFormed exemple_paralleles := by
    unfold WellFormed CodesNodup DepsNodup Resolved
    refine ⟨by decide, by decide, by decide⟩
  have hsucc : (calculer exemple_paralleles).1 = true := by decide
  have hne : exemple_paralleles ≠ [] := by decide
  exact ⟨⟨hwf, hsucc, hne⟩, chemin_critique_correct hwf hsucc hne⟩

/-- C10: on an empty task collection `calculer` returns `True` immediately,
without raising any error and without computing or writing any derived field
(the backward-pass maximum, which would be undefined on an empty collection,
is never reached). -/
theorem calculer_collection_vide : calculer ([] : List Tache) = (true, []) := rfl

/-- C8 (counterexample): the engine performs no duration validation.  On a
single task of duration `-3` the run succeeds (`True`) and the negative
duration flows into the computed dates (`date_fin_tot = -3`) instead of
failing with a `ValidationError`. -/
theorem calculer_duree_negative_contre_exemple :
    calculer exemple_duree_negative
      = (true, [⟨"A", -3, [], 0, -3, 0, -3, 0, 0⟩]) := by decide

/-- C8 (amended): the scheduling engine itself never validates durations:
whether `calculer` succeeds depends only on the collection being empty or the
cycle detector firing, never on the durations, and a non-positive duration is
silently used in the date arithmetic. -/
theorem calculer_succes_indep_duree (ts : List Tache) :
    (calculer ts).1 = (ts.isEmpty || !(has_circular_dependency ts)) := by
  cases h1 : ts.isEmpty <;> cases h2 : has_circular_dependency ts <;>
    simp [calculer, calculer_inner, h1, h2]

/-- C3 (counterexample): on the two-task cycle the internal computation
raises a `ValueError`, but `calculer` swallows it and hands the caller the
plain boolean `False` — no typed `CyclicDependencyError` reaches the caller
(every failure is downgraded to the same default value `False`). -/
theorem calculer_cycle_downgrade_contre_exemple :
    calculer exemple_cycle = (false, []) ∧
      calculer_inner exemple_cycle
        = Except.error "Dépendances circulaires détectées dans le projet !" :=
  ⟨by decide, rfl⟩

/-- C4 (counterexample): an acyclic collection whose only task carries an
unresolved dependency code is scheduled "successfully" (`calculer` returns
`True`) while a negative total slack `-5` is silently stored — no consistency
fault is raised. -/
theorem marge_negative_stockee_contre_exemple :
    calculer exemple_non_resolu_marge
      = (true, [⟨"T", 5, ["X"], 0, 0, -5, 0, -5, -5⟩]) ∧
      (-5 : Int) < 0 := by
  constructor <;> decide

/-- C7 (counterexample): a task whose dependency code resolves to no task of
the collection does not make the run fail: the cycle detector passes, the
task is never emitted by the topological sort, and `calculer` returns `True`
with derived fields written for the task (earliest dates stuck at `0`) — no
`UnresolvedDependencyError` exists anywhere in the code. -/
theorem dependance_non_resolue_contre_exemple :
    calculer exemple_non_resolu_echec
      = (true, [⟨"T", 7, ["X"], 0, 0, -7, 0, -7, -7⟩]) := by decide

/-- C9 (counterexample): `_tri_topologique` performs no secondary
defense-in-depth count check.  On a collection of one task carrying an
unresolved dependency the sort emits zero of the one task, yet the
computation does not treat the graph as cyclic: `calculer` still succeeds. -/
theorem tri_topologique_sans_verification_contre_exemple :
    tri_topologique exemple_non_resolu_tri = [] ∧
      exemple_non_resolu_tri.length = 1 ∧
      (calculer exemple_non_resolu_tri).1 = true := by
  refine ⟨by decide, by decide, by decide⟩

end Pert
